import Mathlib

/-
Verification of the scale-info type registry and compaction engine.

The descriptor model (`TypeDef`, `Ty`, `Field`, `Variant`) follows the data
model of the crate; `TypeComposite` is translated from `src/src/ty/composite.rs`
and the `TypeInfo` implementations for primitives, arrays, tuples, `Vec`,
`String`, `&T`/`&mut T` are translated from `src/src/impls.rs`.  The registry,
interner and `MetaType` are not part of the given sources, so they are
modelled from the spec (sections 3, 4.1, 4.3, 4.4 of spec.md); each such
definition carries a doc comment saying so.
-/

namespace ScaleInfo

/-- The fixed enumeration of primitive types (`TypeDefPrimitive` as used in
`src/src/impls.rs`): boolean, character, unsigned/signed integers of fixed
widths, and the string type. -/
inductive Prim where
  | bool | char | u8 | u16 | u32 | u64 | u128
  | i8 | i16 | i32 | i64 | i128 | str
deriving DecidableEq, Repr

/-- A field of a composite or variant: optional name, a type-reference slot,
optional display name for the reference, optional documentation lines
(spec section 3, "Field").  `R` is the Form axis: reference slots hold type
handles in expanded form and plain indices in compact form. -/
structure Field (R : Type) where
  name : Option String
  ty : R
  typeName : Option String
  docs : List String
deriving DecidableEq, Repr

/-- A variant entry: name, ordered fields, optional explicit discriminant
(spec section 3, "TypeDef", Variant case). -/
structure Variant (R : Type) where
  name : String
  fields : List (Field R)
  discriminant : Option Nat
deriving DecidableEq, Repr

/-- The tagged-union shape of a type description (spec section 3, "TypeDef"),
parameterised over the representation `R` of its reference slots. -/
inductive TypeDef (R : Type) where
  | composite (fields : List (Field R))
  | variant (variants : List (Variant R))
  | sequence (elem : R)
  | array (len : Nat) (elem : R)
  | tuple (elems : List R)
  | primitive (p : Prim)
  | compact (inner : R)
  | phantom (marker : R)
deriving DecidableEq, Repr

/-- A descriptor (the crate's `Type`): a path, type-parameter references and a
`TypeDef` (spec section 3, "Descriptor").  The path is the ordered list of
namespace segments ending in the name. -/
structure Ty (R : Type) where
  path : List String
  typeParams : List R
  typeDef : TypeDef R
deriving DecidableEq, Repr

/-- A type handle: an equality-comparable Identity together with a deferred
producer (spec section 3, "Type handle").  `id` is the identity key used for
interning; `prod` names the producer, resolved through an environment
`P → Ty (Handle K P)` standing for the deferred `fn() -> Type`. -/
structure Handle (K P : Type) where
  id : K
  prod : P
deriving DecidableEq, Repr

/-- The reference slots of a `TypeDef`, in traversal order: field types,
variant field types, sequence/array/tuple/compact/phantom element references
(spec section 4.3, step 4). -/
def TypeDef.slots {R : Type} : TypeDef R → List R
  | .composite fs => fs.map Field.ty
  | .variant vs => vs.foldr (fun v acc => v.fields.map Field.ty ++ acc) []
  | .sequence e => [e]
  | .array _ e => [e]
  | .tuple es => es
  | .primitive _ => []
  | .compact e => [e]
  | .phantom e => [e]

/-- All reference slots of a descriptor: type parameters first, then the
slots of its `TypeDef`. -/
def Ty.slots {R : Type} (t : Ty R) : List R := t.typeParams ++ t.typeDef.slots

/-- Replace the reference slots of a field list by resolved indices taken in
order from `is`. -/
def rebuildFields {R : Type} : List (Field R) → List Nat → List (Field Nat)
  | [], _ => []
  | _ :: _, [] => []
  | f :: fs, i :: is => ⟨f.name, i, f.typeName, f.docs⟩ :: rebuildFields fs is

/-- Replace the reference slots of a variant list by resolved indices taken in
order from `is`. -/
def rebuildVariants {R : Type} : List (Variant R) → List Nat → List (Variant Nat)
  | [], _ => []
  | v :: vs, is =>
      ⟨v.name, rebuildFields v.fields (is.take v.fields.length), v.discriminant⟩ ::
        rebuildVariants vs (is.drop v.fields.length)

/-- Replace the reference slots of a `TypeDef` by resolved indices taken in
order from `is` (spec section 4.3, step 4: "replacing each expanded reference
with its resolved Index"). -/
def TypeDef.rebuild {R : Type} : TypeDef R → List Nat → TypeDef Nat
  | .composite fs, is => .composite (rebuildFields fs is)
  | .variant vs, is => .variant (rebuildVariants vs is)
  | .sequence _, is => .sequence (is.headD 0)
  | .array n _, is => .array n (is.headD 0)
  | .tuple _, is => .tuple is
  | .primitive p, _ => .primitive p
  | .compact _, is => .compact (is.headD 0)
  | .phantom _, is => .phantom (is.headD 0)

/-- Replace all reference slots of a descriptor by resolved indices:
the type parameters consume the first indices, the `TypeDef` the rest. -/
def Ty.rebuild {R : Type} (t : Ty R) (is : List Nat) : Ty Nat :=
  ⟨t.path, is.take t.typeParams.length, t.typeDef.rebuild (is.drop t.typeParams.length)⟩

/-- Position of the first occurrence of `k` in a list, if present. -/
def posOf {K : Type} [DecidableEq K] : List K → K → Option Nat
  | [], _ => none
  | x :: xs, k => if x = k then some 0 else (posOf xs k).map (· + 1)

/-- Modelled from the spec: the Interner (section 4.1) is an append-only
table of first-seen keys; the symbol of a key is its position.  Enumeration
in assignment order is the `symbols` list itself. -/
structure Interner (K : Type) where
  symbols : List K
deriving DecidableEq, Repr

/-- Indices assigned by the interner start at this fixed base
(spec sections 4.1 and 8: the first registered type gets Index 1). -/
def baseIndex : Nat := 1

/-- Modelled from the spec: `get_or_assign(key) -> Index` (section 4.1).
A previously-unseen key is appended and receives the next sequential index;
an equal key returns its existing index without allocating. -/
def Interner.getOrAssign {K : Type} [DecidableEq K] (i : Interner K) (k : K) :
    Nat × Interner K :=
  match posOf i.symbols k with
  | some p => (baseIndex + p, i)
  | none => (baseIndex + i.symbols.length, ⟨i.symbols ++ [k]⟩)

/-- Fold `getOrAssign` over a sequence of keys, collecting the assigned
indices in order. -/
def Interner.assignAll {K : Type} [DecidableEq K] :
    Interner K → List K → List Nat × Interner K
  | i, [] => ([], i)
  | i, k :: ks =>
      match i.getOrAssign k with
      | (n, i') =>
          match assignAll i' ks with
          | (ns, i'') => (n :: ns, i'')

/-- Modelled from the spec: the Registry (sections 3 and 4.3) owns an
identity-to-index interner plus the parallel ordered table of compact-form
descriptors; position `idx - baseIndex` in the table corresponds to index
`idx`, and a `none` entry is the reserved-but-unfinished placeholder slot. -/
structure Registry (K : Type) where
  interner : Interner K
  table : List (Option (Ty Nat))
deriving DecidableEq, Repr

/-- A registry with no registrations (fresh build pass). -/
def emptyRegistry (K : Type) : Registry K := ⟨⟨[]⟩, []⟩

/-- Register each handle of a list in order, threading the registry state and
collecting the resolved indices.  `reg` is the operation applied to one
handle. -/
def registerAll {K P : Type} (reg : Registry K → Handle K P → Option (Nat × Registry K)) :
    Registry K → List (Handle K P) → Option (List Nat × Registry K)
  | r, [] => some ([], r)
  | r, h :: hs =>
      match reg r h with
      | none => none
      | some (i, r') =>
          match registerAll reg r' hs with
          | none => none
          | some (is, r'') => some (i :: is, r'')

/-- Modelled from the spec: `register(handle) -> Index`, the depth-first,
cycle-safe registration algorithm of section 4.3.
Step 1: look the identity up in the interner and return the existing index
immediately when present.  Step 2: otherwise reserve the next index before
anything else by inserting the mapping and a placeholder slot.  Step 3:
invoke the deferred producer (`env h.prod`).  Step 4: recursively register
every nested reference slot.  Step 5: store the fully index-resolved
descriptor at the reserved slot.  `fuel` bounds the recursion depth so that
the function is total in Lean; the termination theorems show a sufficient
fuel always exists for a finite identity space. -/
def registerF {K P : Type} [DecidableEq K] (env : P → Ty (Handle K P)) :
    Nat → Registry K → Handle K P → Option (Nat × Registry K)
  | 0, _, _ => none
  | fuel + 1, r, h =>
      match posOf r.interner.symbols h.id with
      | some p => some (baseIndex + p, r)
      | none =>
          match registerAll (fun r' h' => registerF env fuel r' h')
              ⟨⟨r.interner.symbols ++ [h.id]⟩, r.table ++ [none]⟩ (env h.prod).slots with
          | none => none
          | some (is, r2) =>
              some (baseIndex + r.interner.symbols.length,
                ⟨r2.interner,
                 r2.table.set r.interner.symbols.length (some ((env h.prod).rebuild is))⟩)

/-- Registry invariant: interned identities are pairwise distinct, and the
table has exactly one (possibly placeholder) slot per interned identity
(spec section 3, "Registry table"). -/
def RegInv {K : Type} (r : Registry K) : Prop :=
  r.interner.symbols.Nodup ∧ r.table.length = r.interner.symbols.length

/-- Every identity mentioned by any producer output lies in the finite
identity space `S` (spec section 5: the recursion is bounded by the finite
set of distinct identities reachable from the registration roots). -/
def EnvBounded {K P : Type} [DecidableEq K] (S : Finset K) (env : P → Ty (Handle K P)) : Prop :=
  ∀ p : P, ∀ h ∈ (env p).slots, h.id ∈ S

/-- Every identity interned so far lies in the identity space `S`. -/
def InSet {K : Type} [DecidableEq K] (S : Finset K) (r : Registry K) : Prop :=
  ∀ x ∈ r.interner.symbols, x ∈ S

/-- No placeholder slot is pending in the registry: every table entry is a
finished compact descriptor. -/
def AllFinished {K : Type} (r : Registry K) : Prop :=
  ∀ e ∈ r.table, e ≠ none

/-- How a registry may evolve across a registration: the interner only grows
by appending, finished table entries persist unchanged, and no position that
was finished becomes a placeholder. -/
def Evolves {K : Type} (r r' : Registry K) : Prop :=
  (∃ ext, r'.interner.symbols = r.interner.symbols ++ ext) ∧
  (∀ (j : Nat) (e : Ty Nat), r.table[j]? = some (some e) → r'.table[j]? = some (some e)) ∧
  (∀ j : Nat, r'.table[j]? = some none → r.table[j]? = some none)

/-! ## The built-in `TypeInfo` implementations (`src/src/impls.rs`)

`RType` is the universe of Rust types covered by the claims.  `identityOf`
gives the `Identity` associated type of each `TypeInfo` impl, as written in
`src/src/impls.rs`: a type's own identity for primitives, arrays and slices;
`[T]` for `Vec<T>`; `str` for `String`; `T` for `&T` and `&mut T`.
Per the doc of `TypeInfo::Identity` in `src/src/lib.rs`, a handle's identity
key is `TypeId::of::<T::Identity>`; `TypeId` equality is type equality, so the
key is the `RType` value `identityOf t` itself. -/

/-- The Rust types whose `TypeInfo` implementations the claims mention. -/
inductive RType where
  | bool | char | u8 | u16 | u32 | u64 | u128
  | i8 | i16 | i32 | i64 | i128 | str
  | string
  | array (n : Nat) (elem : RType)
  | vec (elem : RType)
  | slice (elem : RType)
  | ref (target : RType)
  | refMut (target : RType)
deriving DecidableEq, Repr

/-- The `Identity` associated type of each impl in `src/src/impls.rs`:
`type Identity = Self` everywhere except `Vec<T>` (`[T]`), `String` (`str`),
`&T` and `&mut T` (`T`). -/
def identityOf : RType → RType
  | .vec t => .slice t
  | .string => .str
  | .ref t => t
  | .refMut t => t
  | t => t

/-- Modelled from the spec: `MetaType::new::<T>()` pairs the identity key
`TypeId::of::<T::Identity>` (per the doc of `TypeInfo::Identity` in
`src/src/lib.rs`) with the deferred producer `T::type_info` (spec
section 4.2); the producer is named by the type itself. -/
def metaTypeOf (t : RType) : Handle RType RType := ⟨identityOf t, t⟩

/-- A descriptor with empty path and no type parameters, as produced by the
`From<TypeDefX> for Type` conversions used in `src/src/impls.rs`. -/
def anonTy (d : TypeDef (Handle RType RType)) : Ty (Handle RType RType) := ⟨[], [], d⟩

/-- `TypeDefSequence::of::<T>()`: a sequence descriptor whose element
reference is `T`'s handle (impl for `[T]` in `src/src/impls.rs`). -/
def sliceTypeInfo (t : RType) : Ty (Handle RType RType) :=
  anonTy (.sequence (metaTypeOf t))

/-- `type_info()` of each `RType`, translated from `src/src/impls.rs`:
primitives yield their `TypeDefPrimitive`; `[T; N]` yields
`TypeDefArray::new(N as u32, MetaType::new::<T>())` (the `usize` length is
cast to `u32`, hence the reduction modulo `2 ^ 32`); `[T]` yields
`TypeDefSequence::of::<T>()`; `Vec<T>` and `String` delegate to their
`Identity`'s `type_info` (`[T]` resp. `str`, so they share `sliceTypeInfo`
resp. the `str` case); `&T` and `&mut T` delegate to `T`'s `type_info`. -/
def typeInfoFn : RType → Ty (Handle RType RType)
  | .bool => anonTy (.primitive .bool)
  | .char => anonTy (.primitive .char)
  | .u8 => anonTy (.primitive .u8)
  | .u16 => anonTy (.primitive .u16)
  | .u32 => anonTy (.primitive .u32)
  | .u64 => anonTy (.primitive .u64)
  | .u128 => anonTy (.primitive .u128)
  | .i8 => anonTy (.primitive .i8)
  | .i16 => anonTy (.primitive .i16)
  | .i32 => anonTy (.primitive .i32)
  | .i64 => anonTy (.primitive .i64)
  | .i128 => anonTy (.primitive .i128)
  | .str => anonTy (.primitive .str)
  | .string => anonTy (.primitive .str)
  | .array n t => anonTy (.array (n % 2 ^ 32) (metaTypeOf t))
  | .vec t => sliceTypeInfo t
  | .slice t => sliceTypeInfo t
  | .ref t => typeInfoFn t
  | .refMut t => typeInfoFn t

/-- The producer environment of the Rust world: the producer named by type
`T` is `T::type_info`. -/
def envRust : RType → Ty (Handle RType RType) := typeInfoFn

/-- `type_info()` for tuples, translated from the
`impl_metadata_for_tuple!` instantiations in `src/src/impls.rs`: one
implementation per arity from 0 to 16, each returning
`TypeDefTuple::new(tuple_meta_type!(..))` with the component handles in
declared order; no implementation exists beyond arity 16 (`none`). -/
def tupleTypeInfo : List RType → Option (Ty (Handle RType RType))
  | [] => some (anonTy (.tuple []))
  | [a] => some (anonTy (.tuple [metaTypeOf a]))
  | [a, b] => some (anonTy (.tuple [metaTypeOf a, metaTypeOf b]))
  | [a, b, c] => some (anonTy (.tuple [metaTypeOf a, metaTypeOf b, metaTypeOf c]))
  | [a, b, c, d] =>
      some (anonTy (.tuple [metaTypeOf a, metaTypeOf b, metaTypeOf c, metaTypeOf d]))
  | [a, b, c, d, e] =>
      some (anonTy (.tuple [metaTypeOf a, metaTypeOf b, metaTypeOf c, metaTypeOf d,
        metaTypeOf e]))
  | [a, b, c, d, e, f] =>
      some (anonTy (.tuple [metaTypeOf a, metaTypeOf b, metaTypeOf c, metaTypeOf d,
        metaTypeOf e, metaTypeOf f]))
  | [a, b, c, d, e, f, g] =>
      some (anonTy (.tuple [metaTypeOf a, metaTypeOf b, metaTypeOf c, metaTypeOf d,
        metaTypeOf e, metaTypeOf f, metaTypeOf g]))
  | [a, b, c, d, e, f, g, h] =>
      some (anonTy (.tuple [metaTypeOf a, metaTypeOf b, metaTypeOf c, metaTypeOf d,
        metaTypeOf e, metaTypeOf f, metaTypeOf g, metaTypeOf h]))
  | [a, b, c, d, e, f, g, h, i] =>
      some (anonTy (.tuple [metaTypeOf a, metaTypeOf b, metaTypeOf c, metaTypeOf d,
        metaTypeOf e, metaTypeOf f, metaTypeOf g, metaTypeOf h, metaTypeOf i]))
  | [a, b, c, d, e, f, g, h, i, j] =>
      some (anonTy (.tuple [metaTypeOf a, metaTypeOf b, metaTypeOf c, metaTypeOf d,
        metaTypeOf e, metaTypeOf f, metaTypeOf g, metaTypeOf h, metaTypeOf i,
        metaTypeOf j]))
  | [a, b, c, d, e, f, g, h, i, j, k] =>
      some (anonTy (.tuple [metaTypeOf a, metaTypeOf b, metaTypeOf c, metaTypeOf d,
        metaTypeOf e, metaTypeOf f, metaTypeOf g, metaTypeOf h, metaTypeOf i,
        metaTypeOf j, metaTypeOf k]))
  | [a, b, c, d, e, f, g, h, i, j, k, l] =>
      some (anonTy (.tuple [metaTypeOf a, metaTypeOf b, metaTypeOf c, metaTypeOf d,
        metaTypeOf e, metaTypeOf f, metaTypeOf g, metaTypeOf h, metaTypeOf i,
        metaTypeOf j, metaTypeOf k, metaTypeOf l]))
  | [a, b, c, d, e, f, g, h, i, j, k, l, m] =>
      some (anonTy (.tuple [metaTypeOf a, metaTypeOf b, metaTypeOf c, metaTypeOf d,
        metaTypeOf e, metaTypeOf f, metaTypeOf g, metaTypeOf h, metaTypeOf i,
        metaTypeOf j, metaTypeOf k, metaTypeOf l, metaTypeOf m]))
  | [a, b, c, d, e, f, g, h, i, j, k, l, m, n] =>
      some (anonTy (.tuple [metaTypeOf a, metaTypeOf b, metaTypeOf c, metaTypeOf d,
        metaTypeOf e, metaTypeOf f, metaTypeOf g, metaTypeOf h, metaTypeOf i,
        metaTypeOf j, metaTypeOf k, metaTypeOf l, metaTypeOf m, metaTypeOf n]))
  | [a, b, c, d, e, f, g, h, i, j, k, l, m, n, o] =>
      some (anonTy (.tuple [metaTypeOf a, metaTypeOf b, metaTypeOf c, metaTypeOf d,
        metaTypeOf e, metaTypeOf f, metaTypeOf g, metaTypeOf h, metaTypeOf i,
        metaTypeOf j, metaTypeOf k, metaTypeOf l, metaTypeOf m, metaTypeOf n,
        metaTypeOf o]))
  | [a, b, c, d, e, f, g, h, i, j, k, l, m, n, o, p] =>
      some (anonTy (.tuple [metaTypeOf a, metaTypeOf b, metaTypeOf c, metaTypeOf d,
        metaTypeOf e, metaTypeOf f, metaTypeOf g, metaTypeOf h, metaTypeOf i,
        metaTypeOf j, metaTypeOf k, metaTypeOf l, metaTypeOf m, metaTypeOf n,
        metaTypeOf o, metaTypeOf p]))
  | _ => none

/-! ## `TypeComposite` and its conversion to compact form
(`src/src/ty/composite.rs`) -/

/-- A composite type: named (struct) or unnamed (tuple struct) fields
(`TypeComposite` in `src/src/ty/composite.rs`). -/
structure TypeComposite (R : Type) where
  fields : List (Field R)
deriving DecidableEq, Repr

/-- Modelled from the spec: `Registry::map_into_compact` converts a field
list to compact form by registering each field's type handle and replacing
the slot with the resolved index, leaving name, display name and docs
untouched (spec section 4.4: expanded-to-compact conversion is the
registration algorithm applied structurally to every slot). -/
def mapIntoCompactFields {K P : Type} [DecidableEq K] (env : P → Ty (Handle K P))
    (fuel : Nat) :
    Registry K → List (Field (Handle K P)) → Option (List (Field Nat) × Registry K)
  | r, [] => some ([], r)
  | r, f :: fs =>
      match registerF env fuel r f.ty with
      | none => none
      | some (i, r') =>
          match mapIntoCompactFields env fuel r' fs with
          | none => none
          | some (fs', r'') => some (⟨f.name, i, f.typeName, f.docs⟩ :: fs', r'')

/-- `IntoCompact for TypeComposite` (`src/src/ty/composite.rs`, lines 60-68):
`into_compact` maps `registry.map_into_compact` over the fields. -/
def TypeComposite.intoCompact {K P : Type} [DecidableEq K] (env : P → Ty (Handle K P))
    (fuel : Nat) (c : TypeComposite (Handle K P)) (r : Registry K) :
    Option (TypeComposite Nat × Registry K) :=
  match mapIntoCompactFields env fuel r c.fields with
  | none => none
  | some (fs', r') => some (⟨fs'⟩, r')

/-! ## Auxiliary definitions used by the statements -/

/-- The distinct elements of `ks` in first-seen order, accumulated onto
`acc`: the insertion-ordered deduplication that the interner realises. -/
def firstSeenFrom {K : Type} [DecidableEq K] : List K → List K → List K
  | acc, [] => acc
  | acc, k :: ks => firstSeenFrom (if k ∈ acc then acc else acc ++ [k]) ks

/-- The distinct elements of `ks` in first-seen order. -/
def firstSeen {K : Type} [DecidableEq K] (ks : List K) : List K :=
  firstSeenFrom [] ks

/-- A producer environment all of whose descriptors are a bare primitive:
used to instantiate the abstract registry theorems on concrete inputs. -/
def envConst : Nat → Ty (Handle Nat Nat) := fun _ => ⟨[], [], .primitive .bool⟩

/-- A producer environment in which every descriptor is a sequence whose
element handle refers back to identity 0: a directly self-referential type. -/
def envSelf : Nat → Ty (Handle Nat Nat) := fun _ => ⟨[], [], .sequence ⟨0, 0⟩⟩

/-- A one-entry registry that already holds identity 7: concrete input for
the repeat-registration statements. -/
def regPre : Registry Nat := ⟨⟨[7]⟩, [some ⟨[], [], .primitive .bool⟩]⟩

/-- The registry obtained by registering identity 5 with `envConst` from the
empty registry. -/
def regFive : Registry Nat := ⟨⟨[5]⟩, [some ⟨[], [], .primitive .bool⟩]⟩

/-- The registry obtained by registering `Vec<u8>` (identity `[u8]`) with
`envRust` from the empty registry: the slice identity and `u8` are interned,
and the stored descriptor is a sequence pointing at `u8`'s index. -/
def regVecU8 : Registry RType :=
  ⟨⟨[.slice .u8, .u8]⟩,
   [some ⟨[], [], .sequence 2⟩, some ⟨[], [], .primitive .u8⟩]⟩

/-- The index `ix` is the resolution of handle `h'` in registry `r'`:
`ix` is the base plus the position of `h'`'s identity in the interner.
Step 4 of the algorithm stores exactly such indices in every slot. -/
def Resolves {K P : Type} [DecidableEq K] (r' : Registry K) (h' : Handle K P)
    (ix : Nat) : Prop :=
  posOf r'.interner.symbols h'.id = some (ix - baseIndex) ∧ baseIndex ≤ ix

/-- Every table entry of `r'` that was not already finished in `r` is the
slot-wise resolved rebuild of some producer output: there is a handle whose
identity sits at that entry's position, and the entry is its descriptor with
every reference slot replaced by the index resolving that slot's handle in
`r'`.  This is the coherence the registration algorithm maintains for every
descriptor shape and every recursion depth. -/
def NewEntriesCoherent {K P : Type} [DecidableEq K] (env : P → Ty (Handle K P))
    (r r' : Registry K) : Prop :=
  ∀ (q : Nat) (e : Ty Nat), r'.table[q]? = some (some e) →
    r.table[q]? = some (some e) ∨
    ∃ (hk : Handle K P) (is : List Nat),
      posOf r'.interner.symbols hk.id = some q ∧
      e = (env hk.prod).rebuild is ∧
      List.Forall₂ (Resolves r') (env hk.prod).slots is

/-! ## Helper lemmas about `posOf`, `List.set` and `Evolves` -/

theorem posOf_eq_none_iff {K : Type} [DecidableEq K] {l : List K} {k : K} :
    posOf l k = none ↔ k ∉ l := by
  induction l with
  | nil => simp [posOf]
  | cons x xs ih =>
      by_cases hx : x = k
      · simp [posOf, hx]
      · simp only [posOf, hx, if_false, List.mem_cons, Option.map_eq_none', ih]
        constructor
        · intro h hk
          rcases hk with hk | hk
          · exact hx hk.symm
          · exact h hk
        · intro h hk
          exact h (Or.inr hk)

theorem posOf_extend {K : Type} [DecidableEq K] {l l' : List K} {k : K} {p : Nat}
    (h : posOf l k = some p) : posOf (l ++ l') k = some p := by
  induction l generalizing p with
  | nil => simp [posOf] at h
  | cons x xs ih =>
      by_cases hx : x = k
      · simp [posOf, hx] at h ⊢
        exact h
      · simp only [posOf, hx, if_false, Option.map_eq_some', List.cons_append] at h ⊢
        rcases h with ⟨q, hq, rfl⟩
        exact ⟨q, ih hq, rfl⟩

theorem posOf_append_self {K : Type} [DecidableEq K] {l : List K} {k : K}
    (h : k ∉ l) : posOf (l ++ [k]) k = some l.length := by
  induction l with
  | nil => simp [posOf]
  | cons x xs ih =>
      simp only [List.mem_cons, not_or] at h
      have hx : ¬ x = k := fun hxk => h.1 hxk.symm
      have step : posOf ((x :: xs) ++ [k]) k = (posOf (xs ++ [k]) k).map (· + 1) := by
        simp [posOf, hx]
      rw [step, ih h.2]
      simp

theorem posOf_getElem? {K : Type} [DecidableEq K] {l : List K} {k : K} {p : Nat}
    (h : posOf l k = some p) : l[p]? = some k := by
  induction l generalizing p with
  | nil => simp [posOf] at h
  | cons x xs ih =>
      by_cases hx : x = k
      · simp [posOf, hx] at h
        simp [← h, hx]
      · simp only [posOf, hx, if_false, Option.map_eq_some'] at h
        rcases h with ⟨q, hq, rfl⟩
        simpa using ih hq

theorem posOf_lt_length {K : Type} [DecidableEq K] {l : List K} {k : K} {p : Nat}
    (h : posOf l k = some p) : p < l.length := by
  have := posOf_getElem? h
  by_contra hp
  rw [List.getElem?_eq_none (Nat.le_of_not_lt hp)] at this
  exact Option.noConfusion this

theorem posOf_mem {K : Type} [DecidableEq K] {l : List K} {k : K} {p : Nat}
    (h : posOf l k = some p) : k ∈ l := by
  have h1 := posOf_getElem? h
  rw [List.getElem?_eq_some] at h1
  rcases h1 with ⟨hlt, hget⟩
  exact hget ▸ List.getElem_mem hlt

theorem set_append_right {α : Type} (l l' : List α) (j : Nat) (a : α) :
    (l ++ l').set (l.length + j) a = l ++ l'.set j a := by
  induction l with
  | nil => simp
  | cons x xs ih => simp [Nat.succ_add, ih]

theorem set_concat {α : Type} (l : List α) (a b : α) :
    (l ++ [a]).set l.length b = l ++ [b] := by
  have h := set_append_right l [a] 0 b
  rwa [Nat.add_zero] at h

theorem Evolves.rfl {K : Type} {r : Registry K} : Evolves r r :=
  ⟨⟨[], by simp⟩, fun _ _ h => h, fun _ h => h⟩

theorem Evolves.trans {K : Type} {r₁ r₂ r₃ : Registry K}
    (h12 : Evolves r₁ r₂) (h23 : Evolves r₂ r₃) : Evolves r₁ r₃ := by
  obtain ⟨⟨e1, he1⟩, p12, q12⟩ := h12
  obtain ⟨⟨e2, he2⟩, p23, q23⟩ := h23
  exact ⟨⟨e1 ++ e2, by rw [he2, he1, List.append_assoc]⟩,
    fun j e h => p23 j e (p12 j e h),
    fun j h => q12 j (q23 j h)⟩

/-! ## Unfolding and preservation lemmas for `registerF` -/

theorem registerF_zero {K P : Type} [DecidableEq K] (env : P → Ty (Handle K P))
    (r : Registry K) (h : Handle K P) : registerF env 0 r h = none := rfl

theorem registerF_succ {K P : Type} [DecidableEq K] (env : P → Ty (Handle K P))
    (fuel : Nat) (r : Registry K) (h : Handle K P) :
    registerF env (fuel + 1) r h =
      match posOf r.interner.symbols h.id with
      | some p => some (baseIndex + p, r)
      | none =>
          match registerAll (fun r' h' => registerF env fuel r' h')
              ⟨⟨r.interner.symbols ++ [h.id]⟩, r.table ++ [none]⟩ (env h.prod).slots with
          | none => none
          | some (is, r2) =>
              some (baseIndex + r.interner.symbols.length,
                ⟨r2.interner,
                 r2.table.set r.interner.symbols.length
                   (some ((env h.prod).rebuild is))⟩) := rfl

theorem registerAll_evolves {K P : Type} [DecidableEq K]
    (reg : Registry K → Handle K P → Option (Nat × Registry K))
    (hreg : ∀ (r : Registry K) (h : Handle K P) (i : Nat) (r' : Registry K),
      RegInv r → reg r h = some (i, r') → RegInv r' ∧ Evolves r r') :
    ∀ (hs : List (Handle K P)) (r : Registry K) (is : List Nat) (r' : Registry K),
      RegInv r → registerAll reg r hs = some (is, r') →
      RegInv r' ∧ Evolves r r' ∧ is.length = hs.length := by
  intro hs
  induction hs with
  | nil =>
      intro r is r' hinv hrun
      simp only [registerAll, Option.some.injEq, Prod.mk.injEq] at hrun
      obtain ⟨rfl, rfl⟩ := hrun
      exact ⟨hinv, Evolves.rfl, rfl⟩
  | cons h hs ih =>
      intro r is r' hinv hrun
      simp only [registerAll] at hrun
      cases h1 : reg r h with
      | none => rw [h1] at hrun; exact absurd hrun (by simp)
      | some v =>
          obtain ⟨i, r1⟩ := v
          rw [h1] at hrun
          dsimp only at hrun
          cases h2 : registerAll reg r1 hs with
          | none => rw [h2] at hrun; exact absurd hrun (by simp)
          | some w =>
              obtain ⟨is2, r2⟩ := w
              rw [h2] at hrun
              simp only [Option.some.injEq, Prod.mk.injEq] at hrun
              obtain ⟨rfl, rfl⟩ := hrun
              obtain ⟨hinv1, hev1⟩ := hreg r h i r1 hinv h1
              obtain ⟨hinv2, hev2, hlen⟩ := ih r1 is2 _ hinv1 h2
              exact ⟨hinv2, hev1.trans hev2, by simp [hlen]⟩

theorem register_evolves {K P : Type} [DecidableEq K] (env : P → Ty (Handle K P)) :
    ∀ (fuel : Nat) (r : Registry K) (h : Handle K P) (i : Nat) (r' : Registry K),
      RegInv r → registerF env fuel r h = some (i, r') →
      RegInv r' ∧ Evolves r r' ∧
      posOf r'.interner.symbols h.id = some (i - baseIndex) ∧ baseIndex ≤ i := by
  intro fuel
  induction fuel with
  | zero =>
      intro r h i r' _ hrun
      exact absurd hrun (by simp [registerF_zero])
  | succ fuel ih =>
      intro r h i r' hinv hrun
      rw [registerF_succ] at hrun
      cases hpos : posOf r.interner.symbols h.id with
      | some p =>
          rw [hpos] at hrun
          simp only [Option.some.injEq, Prod.mk.injEq] at hrun
          obtain ⟨rfl, rfl⟩ := hrun
          refine ⟨hinv, Evolves.rfl, ?_, Nat.le_add_right _ _⟩
          simpa [Nat.add_sub_cancel_left] using hpos
      | none =>
          rw [hpos] at hrun
          cases hall : registerAll (fun r' h' => registerF env fuel r' h')
              ⟨⟨r.interner.symbols ++ [h.id]⟩, r.table ++ [none]⟩ (env h.prod).slots with
          | none => rw [hall] at hrun; exact absurd hrun (by simp)
          | some w =>
              obtain ⟨is, r2⟩ := w
              rw [hall] at hrun
              simp only [Option.some.injEq, Prod.mk.injEq] at hrun
              obtain ⟨rfl, rfl⟩ := hrun
              have hfresh : h.id ∉ r.interner.symbols := posOf_eq_none_iff.mp hpos
              have hinv1 : RegInv (⟨⟨r.interner.symbols ++ [h.id]⟩, r.table ++ [none]⟩ : Registry K) := by
                constructor
                · have hc := List.Nodup.concat hfresh hinv.1
                  rwa [List.concat_eq_append] at hc
                · simp [hinv.2]
              obtain ⟨hinv2, hev12, hlen⟩ :=
                registerAll_evolves (fun r' h' => registerF env fuel r' h')
                  (fun a b c d hin hs => ⟨(ih a b c d hin hs).1, (ih a b c d hin hs).2.1⟩)
                  (env h.prod).slots _ is r2 hinv1 hall
              obtain ⟨⟨ext, hext⟩, hpersist, hshrink⟩ := hev12
              have hlen0 : r.table.length = r.interner.symbols.length := hinv.2
              have hr2len : r2.table.length = r2.interner.symbols.length := hinv2.2
              have hr2symlen : r.interner.symbols.length < r2.interner.symbols.length := by
                rw [hext]
                simp
              constructor
              · -- RegInv of the final registry
                exact ⟨hinv2.1, by simp [hr2len]⟩
              constructor
              · -- Evolves
                refine ⟨⟨[h.id] ++ ext, by rw [hext, List.append_assoc]⟩, ?_, ?_⟩
                · intro j e hj
                  have hjlt : j < r.table.length := by
                    by_contra hge
                    rw [List.getElem?_eq_none (Nat.le_of_not_lt hge)] at hj
                    exact Option.noConfusion hj
                  have hj1 : (r.table ++ [(none : Option (Ty Nat))])[j]? = some (some e) := by
                    rw [List.getElem?_append_left hjlt]
                    exact hj
                  have hj2 := hpersist j e hj1
                  have hne : r.interner.symbols.length ≠ j := by
                    omega
                  simpa [List.getElem?_set_ne hne] using hj2
                · intro j hj
                  by_cases hje : r.interner.symbols.length = j
                  · subst hje
                    have hlt : r.interner.symbols.length < r2.table.length := by
                      omega
                    rw [List.getElem?_set_eq_of_lt _ hlt] at hj
                    exact absurd hj (by simp)
                  · rw [List.getElem?_set_ne hje] at hj
                    have hj1 := hshrink j hj
                    have hjlt : j < r.table.length + 1 := by
                      by_contra hge
                      have : (r.table ++ [(none : Option (Ty Nat))])[j]? = none :=
                        List.getElem?_eq_none (by simp; omega)
                      rw [this] at hj1
                      exact Option.noConfusion hj1
                    have hjlt' : j < r.table.length := by
                      omega
                    rwa [List.getElem?_append_left hjlt'] at hj1
              constructor
              · -- position of the freshly interned identity
                have hself : posOf (r.interner.symbols ++ [h.id]) h.id =
                    some r.interner.symbols.length := posOf_append_self hfresh
                have : posOf ((r.interner.symbols ++ [h.id]) ++ ext) h.id =
                    some r.interner.symbols.length := posOf_extend hself
                rw [← hext] at this
                simpa [Nat.add_sub_cancel_left] using this
              · exact Nat.le_add_right _ _

/-- Step 1 of the algorithm: an already-interned identity returns its existing
index immediately, with no state change and no producer invocation. -/
theorem register_hit {K P : Type} [DecidableEq K] (env : P → Ty (Handle K P))
    (fuel : Nat) (r : Registry K) (h : Handle K P) (p : Nat)
    (hpos : posOf r.interner.symbols h.id = some p) :
    registerF env (fuel + 1) r h = some (baseIndex + p, r) := by
  rw [registerF_succ, hpos]

/-- After a successful registration, registering any handle with the same
identity returns the same index and leaves the registry untouched. -/
theorem register_then_same {K P : Type} [DecidableEq K] (env : P → Ty (Handle K P))
    (fuel₁ fuel₂ : Nat) (r : Registry K) (h₁ h₂ : Handle K P) (i₁ : Nat)
    (r₁ : Registry K) (hinv : RegInv r) (hid : h₂.id = h₁.id)
    (h1 : registerF env fuel₁ r h₁ = some (i₁, r₁)) (hf : 1 ≤ fuel₂) :
    registerF env fuel₂ r₁ h₂ = some (i₁, r₁) := by
  obtain ⟨_, _, hpos, hbase⟩ := register_evolves env fuel₁ r h₁ i₁ r₁ hinv h1
  obtain ⟨f, rfl⟩ : ∃ f, fuel₂ = f + 1 := ⟨fuel₂ - 1, by omega⟩
  have := register_hit env f r₁ h₂ (i₁ - baseIndex) (by rw [hid]; exact hpos)
  rwa [Nat.add_sub_cancel' hbase] at this

theorem length_le_card {K : Type} [DecidableEq K] {S : Finset K} {r : Registry K}
    (hinv : RegInv r) (hsub : InSet S r) :
    r.interner.symbols.length ≤ S.card := by
  have h1 : r.interner.symbols.toFinset.card = r.interner.symbols.length :=
    List.toFinset_card_of_nodup hinv.1
  have h2 : r.interner.symbols.toFinset ⊆ S := by
    intro x hx
    exact hsub x (List.mem_toFinset.mp hx)
  calc r.interner.symbols.length = r.interner.symbols.toFinset.card := h1.symm
    _ ≤ S.card := Finset.card_le_card h2

theorem registerAll_inset {K P : Type} [DecidableEq K] (S : Finset K)
    (reg : Registry K → Handle K P → Option (Nat × Registry K))
    (hreg : ∀ (r : Registry K) (h : Handle K P) (i : Nat) (r' : Registry K),
      RegInv r → InSet S r → h.id ∈ S → reg r h = some (i, r') →
      RegInv r' ∧ InSet S r') :
    ∀ (hs : List (Handle K P)) (r : Registry K) (is : List Nat) (r' : Registry K),
      (∀ h ∈ hs, h.id ∈ S) → RegInv r → InSet S r →
      registerAll reg r hs = some (is, r') → RegInv r' ∧ InSet S r' := by
  intro hs
  induction hs with
  | nil =>
      intro r is r' _ hinv hset hrun
      simp only [registerAll, Option.some.injEq, Prod.mk.injEq] at hrun
      obtain ⟨rfl, rfl⟩ := hrun
      exact ⟨hinv, hset⟩
  | cons h hs ih =>
      intro r is r' hmem hinv hset hrun
      simp only [registerAll] at hrun
      cases h1 : reg r h with
      | none => rw [h1] at hrun; exact absurd hrun (by simp)
      | some v =>
          obtain ⟨i, r1⟩ := v
          rw [h1] at hrun
          dsimp only at hrun
          cases h2 : registerAll reg r1 hs with
          | none => rw [h2] at hrun; exact absurd hrun (by simp)
          | some w =>
              obtain ⟨is2, r2⟩ := w
              rw [h2] at hrun
              simp only [Option.some.injEq, Prod.mk.injEq] at hrun
              obtain ⟨rfl, rfl⟩ := hrun
              obtain ⟨hinv1, hset1⟩ :=
                hreg r h i r1 hinv hset (hmem h (List.mem_cons_self h hs)) h1
              exact ih r1 is2 _ (fun x hx => hmem x (List.mem_cons_of_mem h hx))
                hinv1 hset1 h2

/-- A successful registration keeps every interned identity inside the finite
identity space. -/
theorem register_inset {K P : Type} [DecidableEq K] (S : Finset K)
    (env : P → Ty (Handle K P)) (henv : EnvBounded S env) :
    ∀ (fuel : Nat) (r : Registry K) (h : Handle K P) (i : Nat) (r' : Registry K),
      RegInv r → InSet S r → h.id ∈ S →
      registerF env fuel r h = some (i, r') → InSet S r' := by
  intro fuel
  induction fuel with
  | zero =>
      intro r h i r' _ _ _ hrun
      exact absurd hrun (by simp [registerF_zero])
  | succ fuel ih =>
      intro r h i r' hinv hset hid hrun
      rw [registerF_succ] at hrun
      cases hpos : posOf r.interner.symbols h.id with
      | some p =>
          rw [hpos] at hrun
          simp only [Option.some.injEq, Prod.mk.injEq] at hrun
          obtain ⟨rfl, rfl⟩ := hrun
          exact hset
      | none =>
          rw [hpos] at hrun
          cases hall : registerAll (fun r' h' => registerF env fuel r' h')
              ⟨⟨r.interner.symbols ++ [h.id]⟩, r.table ++ [none]⟩ (env h.prod).slots with
          | none => rw [hall] at hrun; exact absurd hrun (by simp)
          | some w =>
              obtain ⟨is, r2⟩ := w
              rw [hall] at hrun
              simp only [Option.some.injEq, Prod.mk.injEq] at hrun
              obtain ⟨rfl, rfl⟩ := hrun
              have hfresh : h.id ∉ r.interner.symbols := posOf_eq_none_iff.mp hpos
              have hinv1 : RegInv (⟨⟨r.interner.symbols ++ [h.id]⟩, r.table ++ [none]⟩ : Registry K) := by
                constructor
                · have hc := List.Nodup.concat hfresh hinv.1
                  rwa [List.concat_eq_append] at hc
                · simp [hinv.2]
              have hset1 : InSet S (⟨⟨r.interner.symbols ++ [h.id]⟩, r.table ++ [none]⟩ : Registry K) := by
                intro x hx
                rcases List.mem_append.mp hx with hx | hx
                · exact hset x hx
                · rw [List.mem_singleton.mp hx]
                  exact hid
              have hpres : ∀ (a : Registry K) (b : Handle K P) (c : Nat) (d : Registry K),
                  RegInv a → InSet S a → b.id ∈ S →
                  registerF env fuel a b = some (c, d) → RegInv d ∧ InSet S d :=
                fun a b c d ha hsa hb hr =>
                  ⟨(register_evolves env fuel a b c d ha hr).1, ih a b c d ha hsa hb hr⟩
              exact (registerAll_inset S (fun r' h' => registerF env fuel r' h') hpres
                (env h.prod).slots _ is r2 (fun x hx => henv h.prod x hx) hinv1 hset1 hall).2

theorem registerAll_isSome {K P : Type} [DecidableEq K] (S : Finset K) (bound : Nat)
    (reg : Registry K → Handle K P → Option (Nat × Registry K))
    (hpres : ∀ (r : Registry K) (h : Handle K P) (i : Nat) (r' : Registry K),
      RegInv r → InSet S r → h.id ∈ S → reg r h = some (i, r') →
      RegInv r' ∧ InSet S r' ∧
        r.interner.symbols.length ≤ r'.interner.symbols.length)
    (htot : ∀ (r : Registry K) (h : Handle K P),
      RegInv r → InSet S r → h.id ∈ S →
      S.card + 1 ≤ bound + r.interner.symbols.length → (reg r h).isSome) :
    ∀ (hs : List (Handle K P)) (r : Registry K),
      (∀ h ∈ hs, h.id ∈ S) → RegInv r → InSet S r →
      S.card + 1 ≤ bound + r.interner.symbols.length →
      (registerAll reg r hs).isSome := by
  intro hs
  induction hs with
  | nil => intro r _ _ _ _; simp [registerAll]
  | cons h hs ih =>
      intro r hmem hinv hset hfuel
      have h1s : (reg r h).isSome :=
        htot r h hinv hset (hmem h (List.mem_cons_self h hs)) hfuel
      obtain ⟨⟨i, r1⟩, h1⟩ := Option.isSome_iff_exists.mp h1s
      obtain ⟨hinv1, hset1, hlen1⟩ :=
        hpres r h i r1 hinv hset (hmem h (List.mem_cons_self h hs)) h1
      have h2s : (registerAll reg r1 hs).isSome :=
        ih r1 (fun x hx => hmem x (List.mem_cons_of_mem h hx)) hinv1 hset1
          (by omega)
      obtain ⟨⟨is2, r2⟩, h2⟩ := Option.isSome_iff_exists.mp h2s
      simp only [registerAll, h1, h2]
      rfl

/-- Termination (spec sections 4.3 and 5): with a finite identity space `S`,
fuel `S.card + 1 - interned` always suffices, so `register` succeeds in a
finite number of steps — each producer invocation permanently interns a
previously-unseen identity, and there are at most `S.card` of those. -/
theorem register_isSome {K P : Type} [DecidableEq K] (S : Finset K)
    (env : P → Ty (Handle K P)) (henv : EnvBounded S env) :
    ∀ (fuel : Nat) (r : Registry K) (h : Handle K P),
      RegInv r → InSet S r → h.id ∈ S →
      S.card + 1 ≤ fuel + r.interner.symbols.length →
      (registerF env fuel r h).isSome := by
  intro fuel
  induction fuel with
  | zero =>
      intro r h hinv hset _ hfuel
      have := length_le_card hinv hset
      omega
  | succ fuel ih =>
      intro r h hinv hset hid hfuel
      rw [registerF_succ]
      cases hpos : posOf r.interner.symbols h.id with
      | some p => simp
      | none =>
          have hfresh : h.id ∉ r.interner.symbols := posOf_eq_none_iff.mp hpos
          have hinv1 : RegInv (⟨⟨r.interner.symbols ++ [h.id]⟩, r.table ++ [none]⟩ : Registry K) := by
            constructor
            · have hc := List.Nodup.concat hfresh hinv.1
              rwa [List.concat_eq_append] at hc
            · simp [hinv.2]
          have hset1 : InSet S (⟨⟨r.interner.symbols ++ [h.id]⟩, r.table ++ [none]⟩ : Registry K) := by
            intro x hx
            rcases List.mem_append.mp hx with hx | hx
            · exact hset x hx
            · rw [List.mem_singleton.mp hx]
              exact hid
          have hpres : ∀ (a : Registry K) (b : Handle K P) (c : Nat) (d : Registry K),
              RegInv a → InSet S a → b.id ∈ S →
              registerF env fuel a b = some (c, d) →
              RegInv d ∧ InSet S d ∧
                a.interner.symbols.length ≤ d.interner.symbols.length := by
            intro a b c d ha hsa hb hr
            obtain ⟨hd, ⟨⟨ext, hext⟩, _, _⟩, _, _⟩ := register_evolves env fuel a b c d ha hr
            refine ⟨hd, register_inset S env henv fuel a b c d ha hsa hb hr, ?_⟩
            rw [hext]
            simp
          have hsome := registerAll_isSome S fuel (fun r' h' => registerF env fuel r' h')
            hpres (fun a b ha hsa hb hf => ih a b ha hsa hb (by omega))
            (env h.prod).slots _ (fun x hx => henv h.prod x hx) hinv1 hset1
            (by simp; omega)
          obtain ⟨⟨is, r2⟩, hall⟩ := Option.isSome_iff_exists.mp hsome
          rw [hall]
          rfl

/-! ## Unfold helpers for concrete computations -/

theorem registerAll_nil {K P : Type}
    (reg : Registry K → Handle K P → Option (Nat × Registry K)) (r : Registry K) :
    registerAll reg r [] = some ([], r) := rfl

theorem registerAll_cons_of {K P : Type}
    (reg : Registry K → Handle K P → Option (Nat × Registry K)) (r r' r'' : Registry K)
    (h : Handle K P) (hs : List (Handle K P)) (i : Nat) (is : List Nat)
    (h1 : reg r h = some (i, r')) (h2 : registerAll reg r' hs = some (is, r'')) :
    registerAll reg r (h :: hs) = some (i :: is, r'') := by
  simp only [registerAll, h1, h2]

/-- Step 2 onwards of the algorithm, packaged: on a fresh identity the
reservation happens first and the slot is finalised from the recursive
results. -/
theorem register_miss {K P : Type} [DecidableEq K] (env : P → Ty (Handle K P))
    (fuel : Nat) (r r2 : Registry K) (h : Handle K P) (is : List Nat)
    (hpos : posOf r.interner.symbols h.id = none)
    (hall : registerAll (fun r' h' => registerF env fuel r' h')
      ⟨⟨r.interner.symbols ++ [h.id]⟩, r.table ++ [none]⟩ (env h.prod).slots =
        some (is, r2)) :
    registerF env (fuel + 1) r h =
      some (baseIndex + r.interner.symbols.length,
        ⟨r2.interner,
         r2.table.set r.interner.symbols.length (some ((env h.prod).rebuild is))⟩) := by
  rw [registerF_succ, hpos, hall]

theorem getOrAssign_fresh {K : Type} [DecidableEq K] (i : Interner K) (k : K)
    (h : k ∉ i.symbols) :
    i.getOrAssign k = (baseIndex + i.symbols.length, ⟨i.symbols ++ [k]⟩) := by
  rw [Interner.getOrAssign, posOf_eq_none_iff.mpr h]

theorem getOrAssign_seen {K : Type} [DecidableEq K] (i : Interner K) (k : K) (p : Nat)
    (h : posOf i.symbols k = some p) :
    i.getOrAssign k = (baseIndex + p, i) := by
  rw [Interner.getOrAssign, h]

theorem firstSeenFrom_extends {K : Type} [DecidableEq K] :
    ∀ (ks acc : List K), ∃ ext, firstSeenFrom acc ks = acc ++ ext := by
  intro ks
  induction ks with
  | nil => intro acc; exact ⟨[], by simp [firstSeenFrom]⟩
  | cons k ks ih =>
      intro acc
      by_cases hk : k ∈ acc
      · obtain ⟨ext, hext⟩ := ih acc
        exact ⟨ext, by rw [firstSeenFrom, if_pos hk]; exact hext⟩
      · obtain ⟨ext, hext⟩ := ih (acc ++ [k])
        refine ⟨[k] ++ ext, ?_⟩
        rw [firstSeenFrom, if_neg hk, hext, List.append_assoc]

theorem assignAll_spec {K : Type} [DecidableEq K] :
    ∀ (ks : List K) (i : Interner K),
      ((i.assignAll ks).2).symbols = firstSeenFrom i.symbols ks ∧
      (i.symbols.Nodup → (firstSeenFrom i.symbols ks).Nodup) ∧
      (i.assignAll ks).1 =
        ks.map (fun k => baseIndex + (posOf (firstSeenFrom i.symbols ks) k).getD 0) := by
  intro ks
  induction ks with
  | nil => intro i; exact ⟨rfl, fun h => h, rfl⟩
  | cons k ks ih =>
      intro i
      cases hpos : posOf i.symbols k with
      | some p =>
          have hk : k ∈ i.symbols := posOf_mem hpos
          have hunf : i.assignAll (k :: ks) =
              ((baseIndex + p) :: (i.assignAll ks).1, (i.assignAll ks).2) := by
            simp only [Interner.assignAll, getOrAssign_seen i k p hpos]
          have hfs : firstSeenFrom i.symbols (k :: ks) = firstSeenFrom i.symbols ks := by
            rw [firstSeenFrom, if_pos hk]
          obtain ⟨hsym, hnd, hmap⟩ := ih i
          refine ⟨by rw [hunf, hfs]; exact hsym, by rw [hfs]; exact hnd, ?_⟩
          rw [hunf, hfs, List.map_cons]
          have hstable : posOf (firstSeenFrom i.symbols ks) k = some p := by
            obtain ⟨ext, hext⟩ := firstSeenFrom_extends ks i.symbols
            rw [hext]
            exact posOf_extend hpos
          rw [hmap, hstable]
          rfl
      | none =>
          have hk : k ∉ i.symbols := posOf_eq_none_iff.mp hpos
          have hunf : i.assignAll (k :: ks) =
              ((baseIndex + i.symbols.length) ::
                  ((⟨i.symbols ++ [k]⟩ : Interner K).assignAll ks).1,
                ((⟨i.symbols ++ [k]⟩ : Interner K).assignAll ks).2) := by
            simp only [Interner.assignAll, getOrAssign_fresh i k hk]
          have hfs : firstSeenFrom i.symbols (k :: ks) =
              firstSeenFrom (i.symbols ++ [k]) ks := by
            rw [firstSeenFrom, if_neg hk]
          obtain ⟨hsym, hnd, hmap⟩ := ih (⟨i.symbols ++ [k]⟩ : Interner K)
          refine ⟨by rw [hunf, hfs]; exact hsym, ?_, ?_⟩
          · intro hnodup
            rw [hfs]
            refine hnd ?_
            have hc := List.Nodup.concat hk hnodup
            rwa [List.concat_eq_append] at hc
          · rw [hunf, hfs, List.map_cons, hmap]
            have hstable : posOf (firstSeenFrom (i.symbols ++ [k]) ks) k =
                some i.symbols.length := by
              obtain ⟨ext, hext⟩ := firstSeenFrom_extends ks (i.symbols ++ [k])
              rw [hext]
              exact posOf_extend (posOf_append_self hk)
            rw [hstable]
            rfl

theorem mapIntoCompact_spec {K P : Type} [DecidableEq K] (env : P → Ty (Handle K P))
    (fuel : Nat) :
    ∀ (fs : List (Field (Handle K P))) (r : Registry K) (fs' : List (Field Nat))
      (r' : Registry K),
      mapIntoCompactFields env fuel r fs = some (fs', r') →
      ∃ is, registerAll (fun a b => registerF env fuel a b) r (fs.map Field.ty) =
          some (is, r') ∧
        is.length = fs.length ∧
        fs' = List.zipWith (fun f i => (⟨f.name, i, f.typeName, f.docs⟩ : Field Nat)) fs is := by
  intro fs
  induction fs with
  | nil =>
      intro r fs' r' hrun
      simp only [mapIntoCompactFields, Option.some.injEq, Prod.mk.injEq] at hrun
      obtain ⟨rfl, rfl⟩ := hrun
      exact ⟨[], rfl, rfl, rfl⟩
  | cons f fs ih =>
      intro r fs' r' hrun
      simp only [mapIntoCompactFields] at hrun
      cases h1 : registerF env fuel r f.ty with
      | none => rw [h1] at hrun; exact absurd hrun (by simp)
      | some v =>
          obtain ⟨i, r1⟩ := v
          rw [h1] at hrun
          dsimp only at hrun
          cases h2 : mapIntoCompactFields env fuel r1 fs with
          | none => rw [h2] at hrun; exact absurd hrun (by simp)
          | some w =>
              obtain ⟨fs2, r2⟩ := w
              rw [h2] at hrun
              simp only [Option.some.injEq, Prod.mk.injEq] at hrun
              obtain ⟨rfl, rfl⟩ := hrun
              obtain ⟨is2, hall, hlen, hzip⟩ := ih r1 fs2 _ h2
              refine ⟨i :: is2, ?_, by simp [hlen], by simp [hzip]⟩
              exact registerAll_cons_of _ r r1 _ f.ty (fs.map Field.ty) i is2 h1 hall

/-! ## Coherence of stored entries -/

theorem Resolves_mono {K P : Type} [DecidableEq K] {r' r'' : Registry K}
    {h' : Handle K P} {ix : Nat} (hres : Resolves r' h' ix)
    (hext : ∃ ext, r''.interner.symbols = r'.interner.symbols ++ ext) :
    Resolves r'' h' ix := by
  obtain ⟨ext, he⟩ := hext
  exact ⟨by rw [he]; exact posOf_extend hres.1, hres.2⟩

theorem coherent_rfl {K P : Type} [DecidableEq K] (env : P → Ty (Handle K P))
    (r : Registry K) : NewEntriesCoherent env r r :=
  fun _ _ h => Or.inl h

theorem coherent_trans {K P : Type} [DecidableEq K] {env : P → Ty (Handle K P)}
    {a b c : Registry K} (hab : NewEntriesCoherent env a b)
    (hbc : NewEntriesCoherent env b c)
    (hext : ∃ ext, c.interner.symbols = b.interner.symbols ++ ext) :
    NewEntriesCoherent env a c := by
  intro q e hc
  rcases hbc q e hc with hb | hnew
  · rcases hab q e hb with ha | ⟨hk, is, hq, he, hf⟩
    · exact Or.inl ha
    · refine Or.inr ⟨hk, is, ?_, he, ?_⟩
      · obtain ⟨ext, hx⟩ := hext
        rw [hx]
        exact posOf_extend hq
      · exact hf.imp (fun _ _ hr => Resolves_mono hr hext)
  · exact Or.inr hnew

/-- A fresh registration returns exactly the next sequential index, and the
resulting interner is the old one followed by the fresh identity and then
the further fresh identities its descriptor registered. -/
theorem register_fresh_shape {K P : Type} [DecidableEq K] (env : P → Ty (Handle K P))
    (fuel : Nat) (r : Registry K) (h : Handle K P) (i : Nat) (r' : Registry K)
    (hinv : RegInv r) (hfresh : h.id ∉ r.interner.symbols)
    (hrun : registerF env fuel r h = some (i, r')) :
    i = baseIndex + r.interner.symbols.length ∧
    ∃ ext, r'.interner.symbols = r.interner.symbols ++ h.id :: ext := by
  rcases fuel with _ | f
  · rw [registerF_zero] at hrun
    exact absurd hrun (by simp)
  · rw [registerF_succ] at hrun
    rw [posOf_eq_none_iff.mpr hfresh] at hrun
    cases hall : registerAll (fun r' h' => registerF env f r' h')
        ⟨⟨r.interner.symbols ++ [h.id]⟩, r.table ++ [none]⟩ (env h.prod).slots with
    | none => rw [hall] at hrun; exact absurd hrun (by simp)
    | some w =>
        obtain ⟨is, r2⟩ := w
        rw [hall] at hrun
        simp only [Option.some.injEq, Prod.mk.injEq] at hrun
        obtain ⟨rfl, rfl⟩ := hrun
        have hinv1 : RegInv (⟨⟨r.interner.symbols ++ [h.id]⟩, r.table ++ [none]⟩ :
            Registry K) := by
          constructor
          · have hc := List.Nodup.concat hfresh hinv.1
            rwa [List.concat_eq_append] at hc
          · simp [hinv.2]
        obtain ⟨_, ⟨⟨ext, hext⟩, _, _⟩, _⟩ :=
          registerAll_evolves (fun r' h' => registerF env f r' h')
            (fun a b c d hin hs => ⟨(register_evolves env f a b c d hin hs).1,
              (register_evolves env f a b c d hin hs).2.1⟩)
            (env h.prod).slots _ is r2 hinv1 hall
        refine ⟨rfl, ext, ?_⟩
        show r2.interner.symbols = r.interner.symbols ++ h.id :: ext
        rw [hext]
        simp

/-- The indices returned by registering a list of handles resolve each
handle in the resulting registry. -/
theorem registerAll_resolves {K P : Type} [DecidableEq K] (env : P → Ty (Handle K P))
    (fuel : Nat) :
    ∀ (hs : List (Handle K P)) (r : Registry K) (is : List Nat) (r2 : Registry K),
      RegInv r →
      registerAll (fun a b => registerF env fuel a b) r hs = some (is, r2) →
      List.Forall₂ (Resolves r2) hs is := by
  intro hs
  induction hs with
  | nil =>
      intro r is r2 _ hrun
      simp only [registerAll, Option.some.injEq, Prod.mk.injEq] at hrun
      obtain ⟨rfl, rfl⟩ := hrun
      exact List.Forall₂.nil
  | cons h hs ih =>
      intro r is r2 hinv hrun
      simp only [registerAll] at hrun
      cases h1 : registerF env fuel r h with
      | none => rw [h1] at hrun; exact absurd hrun (by simp)
      | some v =>
          obtain ⟨i, r1⟩ := v
          rw [h1] at hrun
          dsimp only at hrun
          cases h2 : registerAll (fun a b => registerF env fuel a b) r1 hs with
          | none => rw [h2] at hrun; exact absurd hrun (by simp)
          | some w =>
              obtain ⟨is2, r2'⟩ := w
              rw [h2] at hrun
              simp only [Option.some.injEq, Prod.mk.injEq] at hrun
              obtain ⟨rfl, rfl⟩ := hrun
              obtain ⟨hinv1, _, hpos1, hb1⟩ := register_evolves env fuel r h i r1 hinv h1
              obtain ⟨_, ⟨hx, _, _⟩, _⟩ :=
                registerAll_evolves (fun a b => registerF env fuel a b)
                  (fun a b c d hin hs' => ⟨(register_evolves env fuel a b c d hin hs').1,
                    (register_evolves env fuel a b c d hin hs').2.1⟩)
                  hs r1 is2 r2' hinv1 h2
              exact List.Forall₂.cons (Resolves_mono ⟨hpos1, hb1⟩ hx) (ih r1 is2 r2' hinv1 h2)

theorem registerAll_coherent {K P : Type} [DecidableEq K] (env : P → Ty (Handle K P))
    (fuel : Nat)
    (hreg : ∀ (r : Registry K) (h : Handle K P) (i : Nat) (r' : Registry K),
      RegInv r → registerF env fuel r h = some (i, r') → NewEntriesCoherent env r r') :
    ∀ (hs : List (Handle K P)) (r : Registry K) (is : List Nat) (r2 : Registry K),
      RegInv r →
      registerAll (fun a b => registerF env fuel a b) r hs = some (is, r2) →
      NewEntriesCoherent env r r2 := by
  intro hs
  induction hs with
  | nil =>
      intro r is r2 _ hrun
      simp only [registerAll, Option.some.injEq, Prod.mk.injEq] at hrun
      obtain ⟨rfl, rfl⟩ := hrun
      exact coherent_rfl env r
  | cons h hs ih =>
      intro r is r2 hinv hrun
      simp only [registerAll] at hrun
      cases h1 : registerF env fuel r h with
      | none => rw [h1] at hrun; exact absurd hrun (by simp)
      | some v =>
          obtain ⟨i, r1⟩ := v
          rw [h1] at hrun
          dsimp only at hrun
          cases h2 : registerAll (fun a b => registerF env fuel a b) r1 hs with
          | none => rw [h2] at hrun; exact absurd hrun (by simp)
          | some w =>
              obtain ⟨is2, r2'⟩ := w
              rw [h2] at hrun
              simp only [Option.some.injEq, Prod.mk.injEq] at hrun
              obtain ⟨rfl, rfl⟩ := hrun
              have hinv1 : RegInv r1 := (register_evolves env fuel r h i r1 hinv h1).1
              obtain ⟨_, ⟨hx, _, _⟩, _⟩ :=
                registerAll_evolves (fun a b => registerF env fuel a b)
                  (fun a b c d hin hs' => ⟨(register_evolves env fuel a b c d hin hs').1,
                    (register_evolves env fuel a b c d hin hs').2.1⟩)
                  hs r1 is2 r2' hinv1 h2
              exact coherent_trans (hreg r h i r1 hinv h1) (ih r1 is2 r2' hinv1 h2) hx

/-- Table coherence across a registration: every entry finished by the call —
the registered type's own and every one created recursively, at any depth and
of any descriptor shape — is its producer's descriptor with every reference
slot resolved to the base plus the slot identity's interner position. -/
theorem register_coherent {K P : Type} [DecidableEq K] (env : P → Ty (Handle K P)) :
    ∀ (fuel : Nat) (r : Registry K) (h : Handle K P) (i : Nat) (r' : Registry K),
      RegInv r → registerF env fuel r h = some (i, r') →
      NewEntriesCoherent env r r' := by
  intro fuel
  induction fuel with
  | zero =>
      intro r h i r' _ hrun
      exact absurd hrun (by simp [registerF_zero])
  | succ fuel ih =>
      intro r h i r' hinv hrun
      rw [registerF_succ] at hrun
      cases hpos : posOf r.interner.symbols h.id with
      | some p =>
          rw [hpos] at hrun
          simp only [Option.some.injEq, Prod.mk.injEq] at hrun
          obtain ⟨rfl, rfl⟩ := hrun
          exact coherent_rfl env r
      | none =>
          rw [hpos] at hrun
          cases hall : registerAll (fun r' h' => registerF env fuel r' h')
              ⟨⟨r.interner.symbols ++ [h.id]⟩, r.table ++ [none]⟩ (env h.prod).slots with
          | none => rw [hall] at hrun; exact absurd hrun (by simp)
          | some w =>
              obtain ⟨is, r2⟩ := w
              rw [hall] at hrun
              simp only [Option.some.injEq, Prod.mk.injEq] at hrun
              obtain ⟨rfl, rfl⟩ := hrun
              have hfresh : h.id ∉ r.interner.symbols := posOf_eq_none_iff.mp hpos
              have hinv1 : RegInv (⟨⟨r.interner.symbols ++ [h.id]⟩, r.table ++ [none]⟩ :
                  Registry K) := by
                constructor
                · have hc := List.Nodup.concat hfresh hinv.1
                  rwa [List.concat_eq_append] at hc
                · simp [hinv.2]
              obtain ⟨hinv2, ⟨⟨ext, hext⟩, _, _⟩, _⟩ :=
                registerAll_evolves (fun r' h' => registerF env fuel r' h')
                  (fun a b c d hin hs => ⟨(register_evolves env fuel a b c d hin hs).1,
                    (register_evolves env fuel a b c d hin hs).2.1⟩)
                  (env h.prod).slots _ is r2 hinv1 hall
              have hcoh12 := registerAll_coherent env fuel ih (env h.prod).slots _ is r2
                hinv1 hall
              have hres := registerAll_resolves env fuel (env h.prod).slots _ is r2
                hinv1 hall
              have hposh : posOf r2.interner.symbols h.id =
                  some r.interner.symbols.length := by
                rw [hext]
                exact posOf_extend (posOf_append_self hfresh)
              have hlen2 : r.interner.symbols.length < r2.table.length := by
                have := hinv2.2
                rw [hext] at this
                simp only [List.length_append, List.length_cons] at this
                omega
              intro q e hq
              by_cases hqe : q = r.interner.symbols.length
              · subst hqe
                rw [List.getElem?_set_eq_of_lt _ hlen2] at hq
                simp only [Option.some.injEq] at hq
                refine Or.inr ⟨h, is, hposh, hq.symm, ?_⟩
                exact hres.imp (fun a b hr => ⟨hr.1, hr.2⟩)
              · rw [List.getElem?_set_ne (fun hx => hqe hx.symm)] at hq
                rcases hcoh12 q e hq with h12 | ⟨hk, isk, hqk, hek, hfk⟩
                · left
                  have hqlt : q < r.table.length + 1 := by
                    by_contra hge
                    have : ((r.table ++ [(none : Option (Ty Nat))]))[q]? = none :=
                      List.getElem?_eq_none (by simp; omega)
                    rw [this] at h12
                    exact Option.noConfusion h12
                  have hqlt' : q < r.table.length := by
                    have := hinv.2
                    omega
                  rwa [List.getElem?_append_left hqlt'] at h12
                · exact Or.inr ⟨hk, isk, hqk, hek,
                    hfk.imp (fun a b hr => ⟨hr.1, hr.2⟩)⟩

/-! ## Claim theorems -/

/-- C8: for every built-in primitive type in the fixed enumeration (`bool`,
`char`, `u8`/`u16`/`u32`/`u64`/`u128`, `i8`/`i16`/`i32`/`i64`/`i128`, and
`str`), `type_info()` returns a descriptor whose `TypeDef` is the
corresponding `Primitive` variant, with no fields, variants or type
parameters (empty `typeParams`, primitive `typeDef`). -/
theorem C8_primitive_type_info :
    typeInfoFn .bool = ⟨[], [], .primitive .bool⟩ ∧
    typeInfoFn .char = ⟨[], [], .primitive .char⟩ ∧
    typeInfoFn .u8 = ⟨[], [], .primitive .u8⟩ ∧
    typeInfoFn .u16 = ⟨[], [], .primitive .u16⟩ ∧
    typeInfoFn .u32 = ⟨[], [], .primitive .u32⟩ ∧
    typeInfoFn .u64 = ⟨[], [], .primitive .u64⟩ ∧
    typeInfoFn .u128 = ⟨[], [], .primitive .u128⟩ ∧
    typeInfoFn .i8 = ⟨[], [], .primitive .i8⟩ ∧
    typeInfoFn .i16 = ⟨[], [], .primitive .i16⟩ ∧
    typeInfoFn .i32 = ⟨[], [], .primitive .i32⟩ ∧
    typeInfoFn .i64 = ⟨[], [], .primitive .i64⟩ ∧
    typeInfoFn .i128 = ⟨[], [], .primitive .i128⟩ ∧
    typeInfoFn .str = ⟨[], [], .primitive .str⟩ :=
  ⟨rfl, rfl, rfl, rfl, rfl, rfl, rfl, rfl, rfl, rfl, rfl, rfl, rfl⟩

/-- C9 (amended): the descriptor for `[T; N]` is an `Array` `TypeDef` whose
element reference is `T`'s handle and whose stored length is `N` reduced
modulo `2 ^ 32` — the source casts the `usize` length with `N as u32` — so
the stored length equals `N` exactly when `N < 2 ^ 32`. -/
theorem C9_array_type_info (n : Nat) (t : RType) :
    typeInfoFn (.array n t) = ⟨[], [], .array (n % 2 ^ 32) (metaTypeOf t)⟩ ∧
    (n < 2 ^ 32 → typeInfoFn (.array n t) = ⟨[], [], .array n (metaTypeOf t)⟩) := by
  refine ⟨rfl, fun h => ?_⟩
  have heq : typeInfoFn (.array n t) = ⟨[], [], .array (n % 2 ^ 32) (metaTypeOf t)⟩ := rfl
  rw [heq, Nat.mod_eq_of_lt h]

theorem C9_array_type_info_witness :
    32 < 2 ^ 32 ∧ typeInfoFn (.array 32 .u8) = ⟨[], [], .array 32 (metaTypeOf .u8)⟩ :=
  ⟨by decide, (C9_array_type_info 32 .u8).2 (by decide)⟩

/-- C9 counterexample: the claim "the stored length equals `N`" fails at
`N = 2 ^ 32`: the `N as u32` cast truncates and stores length 0. -/
theorem C9_counterexample :
    typeInfoFn (.array 4294967296 .bool) = ⟨[], [], .array 0 (metaTypeOf .bool)⟩ ∧
    (0 : Nat) ≠ 4294967296 :=
  ⟨by decide, by decide⟩

/-- C10: the reflection contract is implemented for tuples only up to
arity 16: any component list of length at most 16 yields a `Tuple` `TypeDef`
whose element references are the component handles in declared left-to-right
order, and any longer list has no implementation. -/
theorem C10_tuple_arity (ts : List RType) :
    (ts.length ≤ 16 → tupleTypeInfo ts = some (anonTy (.tuple (ts.map metaTypeOf)))) ∧
    (16 < ts.length → tupleTypeInfo ts = none) := by
  rcases ts with _|⟨a,_|⟨b,_|⟨c,_|⟨d,_|⟨e,_|⟨f,_|⟨g,_|⟨h,_|⟨i,_|⟨j,_|⟨k,_|⟨l,_|⟨m,
    _|⟨n,_|⟨o,_|⟨p,_|⟨q,rest⟩⟩⟩⟩⟩⟩⟩⟩⟩⟩⟩⟩⟩⟩⟩⟩⟩ <;>
    constructor <;>
      first
        | (intro hlen; rfl)
        | (intro hlen; exfalso;
           simp only [List.length_cons, List.length_nil] at hlen; omega)

theorem C10_tuple_arity_witness :
    ([RType.bool, RType.char].length ≤ 16 ∧
      tupleTypeInfo [RType.bool, RType.char] =
        some (anonTy (.tuple ([RType.bool, RType.char].map metaTypeOf)))) ∧
    (16 < (List.replicate 17 RType.bool).length ∧
      tupleTypeInfo (List.replicate 17 RType.bool) = none) :=
  ⟨⟨by decide, (C10_tuple_arity [RType.bool, RType.char]).1 (by decide)⟩,
   ⟨by decide, (C10_tuple_arity (List.replicate 17 RType.bool)).2 (by decide)⟩⟩

/-- C6 (amended): `Vec<T>` carries `[T]`'s identity and produces `[T]`'s
descriptor, and `String` carries `str`'s identity and produces `str`'s
descriptor, so in both cases registering the alias and then the target
yields the same index, leaves the registry unchanged and keeps a single
table entry for that identity.  `&T` and `&mut T` produce `T`'s descriptor
and both carry the identity key `TypeId::of::<T>` — one resolution step of
the `Identity` associated type — which coincides with the key `T` itself
registers under exactly when `T` is its own identity; for an aliasing `T`
such as `String` the keys differ (see the counterexample). -/
theorem C6_alias :
    (∀ t : RType, (metaTypeOf (.vec t)).id = (metaTypeOf (.slice t)).id ∧
      typeInfoFn (.vec t) = typeInfoFn (.slice t)) ∧
    ((metaTypeOf .string).id = (metaTypeOf .str).id ∧
      typeInfoFn .string = typeInfoFn .str) ∧
    (∀ t : RType, (metaTypeOf (.ref t)).id = t ∧ (metaTypeOf (.refMut t)).id = t ∧
      typeInfoFn (.ref t) = typeInfoFn t ∧ typeInfoFn (.refMut t) = typeInfoFn t) ∧
    (∀ (fuel₁ fuel₂ : Nat) (r : Registry RType) (t : RType) (i : Nat)
        (r₁ : Registry RType),
      RegInv r → 1 ≤ fuel₂ →
      registerF envRust fuel₁ r (metaTypeOf (.vec t)) = some (i, r₁) →
      registerF envRust fuel₂ r₁ (metaTypeOf (.slice t)) = some (i, r₁) ∧
        r₁.interner.symbols.count (metaTypeOf (.vec t)).id = 1) ∧
    (∀ (fuel₁ fuel₂ : Nat) (r : Registry RType) (i : Nat) (r₁ : Registry RType),
      RegInv r → 1 ≤ fuel₂ →
      registerF envRust fuel₁ r (metaTypeOf .string) = some (i, r₁) →
      registerF envRust fuel₂ r₁ (metaTypeOf .str) = some (i, r₁) ∧
        r₁.interner.symbols.count (metaTypeOf .string).id = 1) ∧
    (∀ t : RType, identityOf t = t →
      (metaTypeOf (.ref t)).id = (metaTypeOf t).id ∧
      (metaTypeOf (.refMut t)).id = (metaTypeOf t).id) := by
  refine ⟨fun t => ⟨rfl, rfl⟩, ⟨rfl, rfl⟩, fun t => ⟨rfl, rfl, rfl, rfl⟩, ?_, ?_, ?_⟩
  · intro fuel₁ fuel₂ r t i r₁ hinv hf2 h1
    refine ⟨register_then_same envRust fuel₁ fuel₂ r (metaTypeOf (.vec t))
      (metaTypeOf (.slice t)) i r₁ hinv rfl h1 hf2, ?_⟩
    obtain ⟨hinv1, _, hpos1, _⟩ := register_evolves envRust fuel₁ r _ i r₁ hinv h1
    exact List.count_eq_one_of_mem hinv1.1 (posOf_mem hpos1)
  · intro fuel₁ fuel₂ r i r₁ hinv hf2 h1
    refine ⟨register_then_same envRust fuel₁ fuel₂ r (metaTypeOf .string)
      (metaTypeOf .str) i r₁ hinv rfl h1 hf2, ?_⟩
    obtain ⟨hinv1, _, hpos1, _⟩ := register_evolves envRust fuel₁ r _ i r₁ hinv h1
    exact List.count_eq_one_of_mem hinv1.1 (posOf_mem hpos1)
  · intro t ht
    exact ⟨ht.symm, ht.symm⟩

theorem C6_alias_witness :
    registerF envRust 1 regVecU8 (metaTypeOf (.slice .u8)) = some (1, regVecU8) ∧
    regVecU8.interner.symbols.count (metaTypeOf (.vec .u8)).id = 1 :=
  C6_alias.2.2.2.1 3 1 (emptyRegistry RType) .u8 1 regVecU8
    (by refine ⟨?_, ?_⟩ <;> decide) (by decide) (by decide)

/-- C6 counterexample: the universally quantified claim fails for `T = String`.
`&String` carries the identity key `TypeId::of::<String>` while `String`
itself registers under `TypeId::of::<str>`, so registering `&String` and then
`String` yields two distinct indices and two table entries — not the claimed
shared index and single entry (their stored descriptors are nevertheless both
`str`'s). -/
theorem C6_counterexample :
    registerF envRust 2 (emptyRegistry RType) (metaTypeOf (.ref .string)) =
      some (1, ⟨⟨[.string]⟩, [some ⟨[], [], .primitive .str⟩]⟩) ∧
    registerF envRust 2
        (⟨⟨[.string]⟩, [some ⟨[], [], .primitive .str⟩]⟩ : Registry RType)
        (metaTypeOf .string) =
      some (2, ⟨⟨[.string, .str]⟩,
        [some ⟨[], [], .primitive .str⟩, some ⟨[], [], .primitive .str⟩]⟩) ∧
    (1 : Nat) ≠ 2 ∧
    (⟨⟨[.string, .str]⟩,
      [some ⟨[], [], .primitive .str⟩, some ⟨[], [], .primitive .str⟩]⟩ :
        Registry RType).table.length = 2 :=
  ⟨by decide, by decide, by decide, by decide⟩

/-- C1 counterexample: the claim demands that for *every* registry state the
table length grows by exactly one across the two calls; starting from a
state that already holds the identity, both calls return the existing index
and the registry unchanged, so the combined length increase is zero. -/
theorem C1_counterexample :
    registerF envConst 1 regPre ⟨7, 0⟩ = some (1, regPre) ∧
    regPre.table.length = 1 ∧ (1 : Nat) ≠ 1 + 1 :=
  ⟨by decide, by decide, by decide⟩

/-- C1 (amended): for every registry state and pair of handles with equal
Identity, both registrations return the same Index; the second call leaves
the registry unchanged; afterwards the table holds exactly one entry for
that Identity no matter how often it is registered; when the Identity was
already present the first call leaves the registry unchanged as well
(combined length increase zero); and when it was fresh the interner gains
the Identity followed by the list of further fresh identities its descriptor
registered, the combined table-length increase is one plus that list's
length — exactly one precisely when that list is empty, i.e. when the
descriptor registers no further fresh identities. -/
theorem C1_register_idempotent {K P : Type} [DecidableEq K]
    (env : P → Ty (Handle K P)) (fuel₁ fuel₂ : Nat) (r : Registry K)
    (h₁ h₂ : Handle K P) (i₁ i₂ : Nat) (r₁ r₂ : Registry K)
    (hinv : RegInv r) (hid : h₂.id = h₁.id)
    (h1 : registerF env fuel₁ r h₁ = some (i₁, r₁))
    (h2 : registerF env fuel₂ r₁ h₂ = some (i₂, r₂)) :
    i₂ = i₁ ∧ r₂ = r₁ ∧ r₁.interner.symbols.count h₁.id = 1 ∧
      (h₁.id ∈ r.interner.symbols → r₁ = r) ∧
      (h₁.id ∉ r.interner.symbols →
        ∃ ext, r₁.interner.symbols = r.interner.symbols ++ h₁.id :: ext ∧
          r₁.table.length = r.table.length + 1 + ext.length ∧
          (r₁.table.length = r.table.length + 1 ↔ ext = [])) := by
  have hf2 : 1 ≤ fuel₂ := by
    rcases fuel₂ with _ | f
    · rw [registerF_zero] at h2
      exact absurd h2 (by simp)
    · omega
  have hsame := register_then_same env fuel₁ fuel₂ r h₁ h₂ i₁ r₁ hinv hid h1 hf2
  rw [hsame] at h2
  simp only [Option.some.injEq, Prod.mk.injEq] at h2
  obtain ⟨hi, hr⟩ := h2
  obtain ⟨hinv1, _, hpos1, _⟩ := register_evolves env fuel₁ r h₁ i₁ r₁ hinv h1
  refine ⟨hi.symm, hr.symm, List.count_eq_one_of_mem hinv1.1 (posOf_mem hpos1), ?_, ?_⟩
  · intro hmem
    rcases fuel₁ with _ | f1
    · rw [registerF_zero] at h1
      exact absurd h1 (by simp)
    · cases hp : posOf r.interner.symbols h₁.id with
      | none => exact absurd hmem (posOf_eq_none_iff.mp hp)
      | some p =>
          have hhit := register_hit env f1 r h₁ p hp
          rw [hhit] at h1
          simp only [Option.some.injEq, Prod.mk.injEq] at h1
          exact h1.2.symm
  · intro hfr
    obtain ⟨_, ext, hext⟩ := register_fresh_shape env fuel₁ r h₁ i₁ r₁ hinv hfr h1
    have hlen : r₁.table.length = r.table.length + 1 + ext.length := by
      have l1 : r₁.table.length = r₁.interner.symbols.length := hinv1.2
      have l2 : r.table.length = r.interner.symbols.length := hinv.2
      rw [l1, hext, List.length_append, List.length_cons]
      omega
    refine ⟨ext, hext, hlen, ?_⟩
    rw [hlen]
    constructor
    · intro hx
      have hz : ext.length = 0 := by omega
      exact List.length_eq_zero.mp hz
    · intro hx
      subst hx
      simp

theorem C1_register_idempotent_witness :
    (1 : Nat) = 1 ∧ regFive = regFive ∧
      regFive.interner.symbols.count (⟨5, 0⟩ : Handle Nat Nat).id = 1 ∧
      ((⟨5, 0⟩ : Handle Nat Nat).id ∈ (emptyRegistry Nat).interner.symbols →
        regFive = emptyRegistry Nat) ∧
      ((⟨5, 0⟩ : Handle Nat Nat).id ∉ (emptyRegistry Nat).interner.symbols →
        ∃ ext, regFive.interner.symbols =
            (emptyRegistry Nat).interner.symbols ++ (⟨5, 0⟩ : Handle Nat Nat).id :: ext ∧
          regFive.table.length = (emptyRegistry Nat).table.length + 1 + ext.length ∧
          (regFive.table.length = (emptyRegistry Nat).table.length + 1 ↔ ext = [])) :=
  C1_register_idempotent envConst 2 2 (emptyRegistry Nat) ⟨5, 0⟩ ⟨5, 0⟩ 1 1
    regFive regFive (by refine ⟨?_, ?_⟩ <;> decide) rfl (by decide) (by decide)

/-- C7: `register` is total: under a finite identity space every handle
registers successfully — every input is either a new identity or an
already-seen one — and in particular registering an already-seen Identity is
normal control flow that returns the existing index with no error and no
state change. -/
theorem C7_register_total {K P : Type} [DecidableEq K] (S : Finset K)
    (env : P → Ty (Handle K P)) (r : Registry K) (h : Handle K P) :
    (EnvBounded S env → RegInv r → InSet S r → h.id ∈ S →
      ∃ i r', registerF env (S.card + 1) r h = some (i, r')) ∧
    (∀ fuel p : Nat, posOf r.interner.symbols h.id = some p →
      registerF env (fuel + 1) r h = some (baseIndex + p, r)) := by
  constructor
  · intro henv hinv hset hid
    have hs := register_isSome S env henv (S.card + 1) r h hinv hset hid (by omega)
    obtain ⟨⟨i, r'⟩, hsome⟩ := Option.isSome_iff_exists.mp hs
    exact ⟨i, r', hsome⟩
  · intro fuel p hpos
    exact register_hit env fuel r h p hpos

theorem C7_register_total_witness :
    (∃ i r', registerF envConst (({0} : Finset Nat).card + 1) (emptyRegistry Nat) ⟨0, 0⟩ =
      some (i, r')) ∧
    registerF envConst (0 + 1) regPre ⟨7, 0⟩ = some (baseIndex + 0, regPre) :=
  ⟨(C7_register_total {0} envConst (emptyRegistry Nat) ⟨0, 0⟩).1
      (by intro p x hx; simp [envConst, Ty.slots, TypeDef.slots] at hx)
      (by refine ⟨?_, ?_⟩ <;> decide)
      (by intro x hx; simp [emptyRegistry] at hx)
      (by decide),
   (C7_register_total ({0} : Finset Nat) envConst regPre ⟨7, 0⟩).2 0 0 (by decide)⟩

theorem two_le_length_of_mem {α : Type} {a b : α} {l : List α}
    (ha : a ∈ l) (hb : b ∈ l) (hne : a ≠ b) : 2 ≤ l.length := by
  cases l with
  | nil => simp at ha
  | cons x xs =>
      cases xs with
      | nil =>
          simp only [List.mem_singleton] at ha hb
          exact absurd (ha.trans hb.symm) hne
      | cons y ys =>
          simp only [List.length_cons]
          omega

/-- C4: deduplication is strictly identity-based: registering two handles
with distinct Identities whose produced descriptors are structurally
identical yields two distinct indices, grows the table by at least two
entries, and leaves a finished entry at each of the two positions — no
merging by shape occurs. -/
theorem C4_identity_dedup {K P : Type} [DecidableEq K] (env : P → Ty (Handle K P))
    (fuel₁ fuel₂ : Nat) (r : Registry K) (h₁ h₂ : Handle K P) (i₁ i₂ : Nat)
    (r₁ r₂ : Registry K) (hinv : RegInv r) (hfin : AllFinished r)
    (hne : h₁.id ≠ h₂.id) (hfr1 : h₁.id ∉ r.interner.symbols)
    (hfr2 : h₂.id ∉ r.interner.symbols) (_hstruct : env h₁.prod = env h₂.prod)
    (h1 : registerF env fuel₁ r h₁ = some (i₁, r₁))
    (h2 : registerF env fuel₂ r₁ h₂ = some (i₂, r₂)) :
    i₁ ≠ i₂ ∧ r.interner.symbols.length + 2 ≤ r₂.interner.symbols.length ∧
    (∃ e₁, r₂.table[i₁ - baseIndex]? = some (some e₁)) ∧
    (∃ e₂, r₂.table[i₂ - baseIndex]? = some (some e₂)) := by
  obtain ⟨hinv1, hev1, hpos1, hb1⟩ := register_evolves env fuel₁ r h₁ i₁ r₁ hinv h1
  obtain ⟨hinv2, hev2, hpos2, hb2⟩ := register_evolves env fuel₂ r₁ h₂ i₂ r₂ hinv1 h2
  have hpos1' : posOf r₂.interner.symbols h₁.id = some (i₁ - baseIndex) := by
    obtain ⟨ext, hext⟩ := hev2.1
    rw [hext]
    exact posOf_extend hpos1
  have hnone : ∀ j : Nat, r₂.table[j]? ≠ some none := by
    intro j hj
    have hj1 := hev2.2.2 j hj
    have hj0 := hev1.2.2 j hj1
    obtain ⟨hlt, hg⟩ := List.getElem?_eq_some.mp hj0
    exact hfin none (hg ▸ List.getElem_mem hlt) rfl
  have hlen2 : r₂.table.length = r₂.interner.symbols.length := hinv2.2
  have hentry : ∀ (c : K) (q : Nat), posOf r₂.interner.symbols c = some q →
      ∃ e, r₂.table[q]? = some (some e) := by
    intro c q hq
    have hlt : q < r₂.table.length := by
      rw [hlen2]
      exact posOf_lt_length hq
    have hsome : r₂.table[q]? = some r₂.table[q] := List.getElem?_eq_getElem hlt
    cases hv : r₂.table[q] with
    | none => exact absurd (hv ▸ hsome) (hnone q)
    | some e => exact ⟨e, hv ▸ hsome⟩
  refine ⟨?_, ?_, hentry h₁.id _ hpos1', hentry h₂.id _ hpos2⟩
  · intro heq
    have hsub : i₁ - baseIndex = i₂ - baseIndex := by rw [heq]
    have g1 := posOf_getElem? hpos1'
    have g2 := posOf_getElem? hpos2
    rw [hsub, g2] at g1
    exact hne (Option.some.inj g1).symm
  · obtain ⟨e1, he1⟩ := hev1.1
    obtain ⟨e2x, he2⟩ := hev2.1
    have hsyms : r₂.interner.symbols = r.interner.symbols ++ (e1 ++ e2x) := by
      rw [he2, he1, List.append_assoc]
    have hmem1 : h₁.id ∈ e1 ++ e2x := by
      have hm := posOf_mem hpos1'
      rw [hsyms] at hm
      rcases List.mem_append.mp hm with hm | hm
      · exact absurd hm hfr1
      · exact hm
    have hmem2 : h₂.id ∈ e1 ++ e2x := by
      have hm := posOf_mem hpos2
      rw [hsyms] at hm
      rcases List.mem_append.mp hm with hm | hm
      · exact absurd hm hfr2
      · exact hm
    have h2le := two_le_length_of_mem hmem1 hmem2 hne
    have : r₂.interner.symbols.length =
        r.interner.symbols.length + (e1 ++ e2x).length := by
      rw [hsyms, List.length_append]
    omega

theorem C4_identity_dedup_witness :
    (1 : Nat) ≠ 2 ∧
    (emptyRegistry Nat).interner.symbols.length + 2 ≤
      (⟨⟨[1, 2]⟩, [some ⟨[], [], .primitive .bool⟩, some ⟨[], [], .primitive .bool⟩]⟩ :
        Registry Nat).interner.symbols.length ∧
    (∃ e₁, (⟨⟨[1, 2]⟩, [some ⟨[], [], .primitive .bool⟩, some ⟨[], [], .primitive .bool⟩]⟩ :
        Registry Nat).table[1 - baseIndex]? = some (some e₁)) ∧
    (∃ e₂, (⟨⟨[1, 2]⟩, [some ⟨[], [], .primitive .bool⟩, some ⟨[], [], .primitive .bool⟩]⟩ :
        Registry Nat).table[2 - baseIndex]? = some (some e₂)) :=
  C4_identity_dedup envConst 1 1 (emptyRegistry Nat) ⟨1, 0⟩ ⟨2, 0⟩ 1 2
    ⟨⟨[1]⟩, [some ⟨[], [], .primitive .bool⟩]⟩
    ⟨⟨[1, 2]⟩, [some ⟨[], [], .primitive .bool⟩, some ⟨[], [], .primitive .bool⟩]⟩
    (by refine ⟨?_, ?_⟩ <;> decide)
    (by intro e he; simp [emptyRegistry] at he)
    (by decide) (by simp [emptyRegistry]) (by simp [emptyRegistry]) rfl
    (by decide) (by decide)

/-- C3: index assignment is deterministic and insertion-ordered: a fresh key
allocates the next sequential index (starting at the fixed base) by
appending, a repeated key returns its existing index without allocating, and
over any sequence of registrations the interner ends up holding exactly the
distinct keys in first-registration order (so enumeration is in assignment
order, with no gaps and no reuse), every returned index being the base plus
the key's position in that order. -/
theorem C3_interner_order {K : Type} [DecidableEq K] :
    (∀ (i : Interner K) (k : K), k ∉ i.symbols →
      i.getOrAssign k = (baseIndex + i.symbols.length, ⟨i.symbols ++ [k]⟩)) ∧
    (∀ (i : Interner K) (k : K) (p : Nat), posOf i.symbols k = some p →
      i.getOrAssign k = (baseIndex + p, i)) ∧
    (∀ ks : List K,
      ((⟨[]⟩ : Interner K).assignAll ks).2.symbols = firstSeen ks ∧
      (firstSeen ks).Nodup ∧
      ((⟨[]⟩ : Interner K).assignAll ks).1 =
        ks.map (fun k => baseIndex + (posOf (firstSeen ks) k).getD 0)) := by
  refine ⟨getOrAssign_fresh, getOrAssign_seen, fun ks => ?_⟩
  obtain ⟨hsym, hnd, hmap⟩ := assignAll_spec ks (⟨[]⟩ : Interner K)
  exact ⟨hsym, hnd List.nodup_nil, hmap⟩

theorem C3_interner_order_witness :
    ((⟨[4]⟩ : Interner Nat).getOrAssign 3 =
      (baseIndex + (⟨[4]⟩ : Interner Nat).symbols.length,
        ⟨(⟨[4]⟩ : Interner Nat).symbols ++ [3]⟩)) ∧
    ((⟨[4]⟩ : Interner Nat).getOrAssign 4 = (baseIndex + 0, ⟨[4]⟩)) ∧
    (((⟨[]⟩ : Interner Nat).assignAll [4, 7, 4]).2.symbols = firstSeen [4, 7, 4] ∧
      (firstSeen [4, 7, 4]).Nodup ∧
      ((⟨[]⟩ : Interner Nat).assignAll [4, 7, 4]).1 =
        [4, 7, 4].map (fun k => baseIndex + (posOf (firstSeen [4, 7, 4]) k).getD 0)) :=
  ⟨C3_interner_order.1 ⟨[4]⟩ 3 (by decide),
   C3_interner_order.2.1 ⟨[4]⟩ 4 0 (by decide),
   C3_interner_order.2.2 [4, 7, 4]⟩

/-- C5: converting an expanded composite to compact form is exactly the
registration algorithm applied to each reference slot: `into_compact`
registers the field handles in order (threading the registry exactly as
`registerAll` does), replaces each field's type slot with the resolved
index, and preserves the number, order, names, display names and docs of the
fields — no other transformation. -/
theorem C5_into_compact {K P : Type} [DecidableEq K] (env : P → Ty (Handle K P))
    (fuel : Nat) (c : TypeComposite (Handle K P)) (r : Registry K)
    (c' : TypeComposite Nat) (r' : Registry K)
    (hrun : c.intoCompact env fuel r = some (c', r')) :
    ∃ is, registerAll (fun a b => registerF env fuel a b) r (c.fields.map Field.ty) =
        some (is, r') ∧
      is.length = c.fields.length ∧
      c'.fields = List.zipWith (fun f i => (⟨f.name, i, f.typeName, f.docs⟩ : Field Nat))
        c.fields is := by
  simp only [TypeComposite.intoCompact] at hrun
  cases hm : mapIntoCompactFields env fuel r c.fields with
  | none => rw [hm] at hrun; exact absurd hrun (by simp)
  | some w =>
      obtain ⟨fs', r''⟩ := w
      rw [hm] at hrun
      simp only [Option.some.injEq, Prod.mk.injEq] at hrun
      obtain ⟨rfl, rfl⟩ := hrun
      obtain ⟨is, hall, hlen, hzip⟩ := mapIntoCompact_spec env fuel c.fields r fs' _ hm
      exact ⟨is, hall, hlen, hzip⟩

theorem C5_into_compact_witness :
    ∃ is, registerAll (fun a b => registerF envConst 1 a b) (emptyRegistry Nat)
        ((⟨[⟨some "x", ⟨3, 0⟩, some "B", []⟩]⟩ :
          TypeComposite (Handle Nat Nat)).fields.map Field.ty) =
        some (is, (⟨⟨[3]⟩, [some ⟨[], [], .primitive .bool⟩]⟩ : Registry Nat)) ∧
      is.length = (⟨[⟨some "x", ⟨3, 0⟩, some "B", []⟩]⟩ :
        TypeComposite (Handle Nat Nat)).fields.length ∧
      (⟨[⟨some "x", 1, some "B", []⟩]⟩ : TypeComposite Nat).fields =
        List.zipWith (fun f i => (⟨f.name, i, f.typeName, f.docs⟩ : Field Nat))
          (⟨[⟨some "x", ⟨3, 0⟩, some "B", []⟩]⟩ :
            TypeComposite (Handle Nat Nat)).fields is :=
  C5_into_compact envConst 1 ⟨[⟨some "x", ⟨3, 0⟩, some "B", []⟩]⟩ (emptyRegistry Nat)
    ⟨[⟨some "x", 1, some "B", []⟩]⟩ ⟨⟨[3]⟩, [some ⟨[], [], .primitive .bool⟩]⟩
    (by decide)

/-- C2: registration terminates on self-referential type graphs.  With a
finite identity space, fuel `|S| + 1` always suffices (each producer runs at
most once per distinct Identity — the interner stays duplicate-free — since
the Index is reserved before the producer is invoked).  Registering a fresh
type assigns it the next Index `i`, interns its Identity at position
`i - baseIndex`, and every entry finished by the call — of any descriptor
shape, at any recursion depth — is its producer's descriptor with each
reference slot resolved by interner position; consequently every slot
anywhere in the newly stored entries whose handle carries the registered
type's own Identity — reached directly or through one or more intermediate
types — resolves to `i`, that type's own Index.  The last two conjuncts
exhibit this concretely: a direct self-reference stores one entry whose
self-slot is its own Index, and a two-type cycle stores both entries with
the intermediate's back-slot resolving to the original's Index. -/
theorem C2_recursive_termination {K P : Type} [DecidableEq K]
    (env : P → Ty (Handle K P)) :
    (∀ (S : Finset K) (r : Registry K) (h : Handle K P),
      EnvBounded S env → RegInv r → InSet S r → h.id ∈ S →
      ∃ i r', registerF env (S.card + 1) r h = some (i, r')) ∧
    (∀ (fuel : Nat) (r : Registry K) (h : Handle K P) (i : Nat) (r' : Registry K),
      RegInv r → registerF env fuel r h = some (i, r') →
      r'.interner.symbols.Nodup) ∧
    (∀ (fuel : Nat) (r : Registry K) (h : Handle K P) (i : Nat) (r' : Registry K),
      RegInv r → h.id ∉ r.interner.symbols →
      registerF env fuel r h = some (i, r') →
      i = baseIndex + r.interner.symbols.length ∧
      posOf r'.interner.symbols h.id = some (i - baseIndex) ∧
      NewEntriesCoherent env r r') ∧
    (∀ (fuel : Nat) (r : Registry K) (h : Handle K P) (i : Nat) (r' : Registry K),
      RegInv r → h.id ∉ r.interner.symbols →
      registerF env fuel r h = some (i, r') →
      ∀ (q : Nat) (e : Ty Nat), r'.table[q]? = some (some e) →
        r.table[q]? = some (some e) ∨
        ∃ (hk : Handle K P) (is : List Nat),
          e = (env hk.prod).rebuild is ∧
          List.Forall₂ (fun h' ix => h'.id = h.id → ix = i) (env hk.prod).slots is) ∧
    (∀ (fuel : Nat) (r : Registry K) (h h' : Handle K P) (pth : List String),
      2 ≤ fuel → RegInv r → h.id ∉ r.interner.symbols →
      env h.prod = ⟨pth, [], .sequence h'⟩ → h'.id = h.id →
      registerF env fuel r h =
        some (baseIndex + r.interner.symbols.length,
          ⟨⟨r.interner.symbols ++ [h.id]⟩,
           r.table ++
             [some ⟨pth, [], .sequence (baseIndex + r.interner.symbols.length)⟩]⟩)) ∧
    (∀ (fuel : Nat) (r : Registry K) (hA hB hA' : Handle K P) (pA pB : List String),
      3 ≤ fuel → RegInv r → hA.id ∉ r.interner.symbols → hB.id ∉ r.interner.symbols →
      hA.id ≠ hB.id →
      env hA.prod = ⟨pA, [], .sequence hB⟩ → env hB.prod = ⟨pB, [], .sequence hA'⟩ →
      hA'.id = hA.id →
      registerF env fuel r hA =
        some (baseIndex + r.interner.symbols.length,
          ⟨⟨(r.interner.symbols ++ [hA.id]) ++ [hB.id]⟩,
           r.table ++
             [some ⟨pA, [], .sequence (baseIndex + (r.interner.symbols.length + 1))⟩,
              some ⟨pB, [], .sequence (baseIndex + r.interner.symbols.length)⟩]⟩)) := by
  refine ⟨?_, ?_, ?_, ?_, ?_, ?_⟩
  · intro S r h henv hinv hset hid
    have hs := register_isSome S env henv (S.card + 1) r h hinv hset hid (by omega)
    obtain ⟨⟨i, r'⟩, hsome⟩ := Option.isSome_iff_exists.mp hs
    exact ⟨i, r', hsome⟩
  · intro fuel r h i r' hinv hrun
    exact (register_evolves env fuel r h i r' hinv hrun).1.1
  · intro fuel r h i r' hinv hfresh hrun
    exact ⟨(register_fresh_shape env fuel r h i r' hinv hfresh hrun).1,
      (register_evolves env fuel r h i r' hinv hrun).2.2.1,
      register_coherent env fuel r h i r' hinv hrun⟩
  · intro fuel r h i r' hinv hfresh hrun q e hq
    have hp := (register_evolves env fuel r h i r' hinv hrun).2.2.1
    have hbi := (register_evolves env fuel r h i r' hinv hrun).2.2.2
    rcases register_coherent env fuel r h i r' hinv hrun q e hq with
      hold | ⟨hk, is, _, he, hf⟩
    · exact Or.inl hold
    · refine Or.inr ⟨hk, is, he, hf.imp ?_⟩
      intro h' ix hr hid
      have h1' := hr.1
      rw [hid, hp] at h1'
      have hx := Option.some.inj h1'
      have hb := hr.2
      omega
  · intro fuel r h h' pth hfuel hinv hfresh henv hid
    obtain ⟨f, rfl⟩ : ∃ f, fuel = f + 2 := ⟨fuel - 2, by omega⟩
    have hpos : posOf r.interner.symbols h.id = none := posOf_eq_none_iff.mpr hfresh
    have hhit : registerF env (f + 1)
        (⟨⟨r.interner.symbols ++ [h.id]⟩, r.table ++ [none]⟩ : Registry K) h' =
        some (baseIndex + r.interner.symbols.length,
          ⟨⟨r.interner.symbols ++ [h.id]⟩, r.table ++ [none]⟩) := by
      apply register_hit
      show posOf (r.interner.symbols ++ [h.id]) h'.id = some r.interner.symbols.length
      rw [hid]
      exact posOf_append_self hfresh
    have hslots : (env h.prod).slots = [h'] := by rw [henv]; rfl
    have hall : registerAll (fun a b => registerF env (f + 1) a b)
        (⟨⟨r.interner.symbols ++ [h.id]⟩, r.table ++ [none]⟩ : Registry K)
        (env h.prod).slots =
        some ([baseIndex + r.interner.symbols.length],
          ⟨⟨r.interner.symbols ++ [h.id]⟩, r.table ++ [none]⟩) := by
      rw [hslots]
      exact registerAll_cons_of _ _ _ _ h' [] _ [] hhit (registerAll_nil _ _)
    have hmain := register_miss env (f + 1) r
      (⟨⟨r.interner.symbols ++ [h.id]⟩, r.table ++ [none]⟩ : Registry K) h
      [baseIndex + r.interner.symbols.length] hpos hall
    dsimp only at hmain
    have hreb : (env h.prod).rebuild [baseIndex + r.interner.symbols.length] =
        ⟨pth, [], .sequence (baseIndex + r.interner.symbols.length)⟩ := by
      rw [henv]
      rfl
    rw [hreb] at hmain
    have hset : (r.table ++ [none]).set r.interner.symbols.length
        (some (⟨pth, [], .sequence (baseIndex + r.interner.symbols.length)⟩ : Ty Nat)) =
        r.table ++ [some ⟨pth, [], .sequence (baseIndex + r.interner.symbols.length)⟩] := by
      rw [← hinv.2]
      exact set_concat r.table none _
    rw [hset] at hmain
    exact hmain
  · intro fuel r hA hB hA' pA pB hfuel hinv hfA hfB hAB henvA henvB hid
    obtain ⟨f, rfl⟩ : ∃ f, fuel = f + 3 := ⟨fuel - 3, by omega⟩
    have hposA : posOf r.interner.symbols hA.id = none := posOf_eq_none_iff.mpr hfA
    have hposB : posOf (r.interner.symbols ++ [hA.id]) hB.id = none := by
      refine posOf_eq_none_iff.mpr ?_
      intro hmem
      rcases List.mem_append.mp hmem with hm | hm
      · exact hfB hm
      · exact hAB (List.mem_singleton.mp hm).symm
    -- the innermost call: hA' hits the reserved slot of hA
    have hhitA : registerF env (f + 1)
        (⟨⟨(r.interner.symbols ++ [hA.id]) ++ [hB.id]⟩,
          (r.table ++ [none]) ++ [none]⟩ : Registry K) hA' =
        some (baseIndex + r.interner.symbols.length,
          ⟨⟨(r.interner.symbols ++ [hA.id]) ++ [hB.id]⟩,
            (r.table ++ [none]) ++ [none]⟩) := by
      apply register_hit
      show posOf ((r.interner.symbols ++ [hA.id]) ++ [hB.id]) hA'.id =
        some r.interner.symbols.length
      rw [hid]
      exact posOf_extend (posOf_append_self hfA)
    have hslotsB : (env hB.prod).slots = [hA'] := by rw [henvB]; rfl
    have hallB : registerAll (fun a b => registerF env (f + 1) a b)
        (⟨⟨(r.interner.symbols ++ [hA.id]) ++ [hB.id]⟩,
          (r.table ++ [none]) ++ [none]⟩ : Registry K) (env hB.prod).slots =
        some ([baseIndex + r.interner.symbols.length],
          ⟨⟨(r.interner.symbols ++ [hA.id]) ++ [hB.id]⟩,
            (r.table ++ [none]) ++ [none]⟩) := by
      rw [hslotsB]
      exact registerAll_cons_of _ _ _ _ hA' [] _ [] hhitA (registerAll_nil _ _)
    have hmainB := register_miss env (f + 1)
      (⟨⟨r.interner.symbols ++ [hA.id]⟩, r.table ++ [none]⟩ : Registry K)
      (⟨⟨(r.interner.symbols ++ [hA.id]) ++ [hB.id]⟩,
        (r.table ++ [none]) ++ [none]⟩ : Registry K) hB
      [baseIndex + r.interner.symbols.length] hposB hallB
    dsimp only at hmainB
    have hrebB : (env hB.prod).rebuild [baseIndex + r.interner.symbols.length] =
        ⟨pB, [], .sequence (baseIndex + r.interner.symbols.length)⟩ := by
      rw [henvB]
      rfl
    rw [hrebB] at hmainB
    have hsetB : ((r.table ++ [none]) ++ [none]).set
        (r.interner.symbols ++ [hA.id]).length
        (some (⟨pB, [], .sequence (baseIndex + r.interner.symbols.length)⟩ : Ty Nat)) =
        (r.table ++ [none]) ++
          [some ⟨pB, [], .sequence (baseIndex + r.interner.symbols.length)⟩] := by
      have hl : (r.interner.symbols ++ [hA.id]).length = (r.table ++ [none]).length := by
        simp [hinv.2]
      rw [hl]
      exact set_concat (r.table ++ [none]) none _
    rw [hsetB] at hmainB
    -- now the outer call on hA
    have hslotsA : (env hA.prod).slots = [hB] := by rw [henvA]; rfl
    have hallA : registerAll (fun a b => registerF env (f + 2) a b)
        (⟨⟨r.interner.symbols ++ [hA.id]⟩, r.table ++ [none]⟩ : Registry K)
        (env hA.prod).slots =
        some ([baseIndex + (r.interner.symbols ++ [hA.id]).length],
          ⟨⟨(r.interner.symbols ++ [hA.id]) ++ [hB.id]⟩,
            (r.table ++ [none]) ++
              [some ⟨pB, [], .sequence (baseIndex + r.interner.symbols.length)⟩]⟩) := by
      rw [hslotsA]
      exact registerAll_cons_of _ _ _ _ hB [] _ [] hmainB (registerAll_nil _ _)
    have hmainA := register_miss env (f + 2) r
      (⟨⟨(r.interner.symbols ++ [hA.id]) ++ [hB.id]⟩,
        (r.table ++ [none]) ++
          [some ⟨pB, [], .sequence (baseIndex + r.interner.symbols.length)⟩]⟩ : Registry K)
      hA [baseIndex + (r.interner.symbols ++ [hA.id]).length] hposA hallA
    dsimp only at hmainA
    have hrebA : (env hA.prod).rebuild
        [baseIndex + (r.interner.symbols ++ [hA.id]).length] =
        ⟨pA, [], .sequence (baseIndex + (r.interner.symbols.length + 1))⟩ := by
      rw [henvA]
      simp [Ty.rebuild, TypeDef.rebuild]
    rw [hrebA] at hmainA
    have hsetA : ((r.table ++ [none]) ++
          [some (⟨pB, [], .sequence (baseIndex + r.interner.symbols.length)⟩ : Ty Nat)]).set
        r.interner.symbols.length
        (some (⟨pA, [], .sequence (baseIndex + (r.interner.symbols.length + 1))⟩ : Ty Nat)) =
        r.table ++
          [some (⟨pA, [], .sequence (baseIndex + (r.interner.symbols.length + 1))⟩ : Ty Nat),
           some (⟨pB, [], .sequence (baseIndex + r.interner.symbols.length)⟩ : Ty Nat)] := by
      rw [List.append_assoc]
      have hz : r.interner.symbols.length = r.table.length + 0 := by
        simp [hinv.2]
      rw [hz, set_append_right]
      rfl
    rw [hsetA] at hmainA
    exact hmainA

theorem C2_recursive_termination_witness :
    (∃ i r', registerF envSelf (({0} : Finset Nat).card + 1) (emptyRegistry Nat) ⟨0, 0⟩ =
      some (i, r')) ∧
    ((1 : Nat) = baseIndex + (emptyRegistry Nat).interner.symbols.length ∧
      posOf (⟨⟨[0]⟩, [some ⟨[], [], .sequence 1⟩]⟩ :
          Registry Nat).interner.symbols (⟨0, 0⟩ : Handle Nat Nat).id =
        some (1 - baseIndex) ∧
      NewEntriesCoherent envSelf (emptyRegistry Nat)
        (⟨⟨[0]⟩, [some ⟨[], [], .sequence 1⟩]⟩ : Registry Nat)) ∧
    registerF envSelf 2 (emptyRegistry Nat) ⟨0, 0⟩ =
      some (baseIndex + (emptyRegistry Nat).interner.symbols.length,
        ⟨⟨(emptyRegistry Nat).interner.symbols ++ [(⟨0, 0⟩ : Handle Nat Nat).id]⟩,
         (emptyRegistry Nat).table ++
           [some ⟨[], [],
             .sequence (baseIndex + (emptyRegistry Nat).interner.symbols.length)⟩]⟩) :=
  ⟨(C2_recursive_termination envSelf).1 {0} (emptyRegistry Nat) ⟨0, 0⟩
      (by intro p x hx
          simp only [envSelf, Ty.slots, TypeDef.slots, List.nil_append,
            List.mem_singleton] at hx
          rw [hx]
          decide)
      (by refine ⟨?_, ?_⟩ <;> decide)
      (by intro x hx; simp [emptyRegistry] at hx)
      (by decide),
   (C2_recursive_termination envSelf).2.2.1 2 (emptyRegistry Nat) ⟨0, 0⟩ 1
      (⟨⟨[0]⟩, [some ⟨[], [], .sequence 1⟩]⟩ : Registry Nat)
      (by refine ⟨?_, ?_⟩ <;> decide) (by simp [emptyRegistry]) (by decide),
   (C2_recursive_termination envSelf).2.2.2.2.1 2 (emptyRegistry Nat) ⟨0, 0⟩ ⟨0, 0⟩ []
      (by decide) (by refine ⟨?_, ?_⟩ <;> decide)
      (by simp [emptyRegistry]) rfl rfl⟩

end ScaleInfo
